import Mathlib

/-!
fio_benchmark_exporter: the terse-v5 record decoder and the start-up checks

A shallow embedding of `main.go`.  The decoder is the body of the
`for scanner.Scan()` loop (the signature check `s[0:6]`, `strings.Split(s, ";")`
and the 37 `strconv.ParseFloat` blocks between `START PARSE` and `END PARSE`);
the start-up checks are the three `log.Fatal` guards on the custom profile that
precede the scheduler goroutine.

Conventions.

* A Go `string` is a sequence of bytes.  The byte `b` is represented by the
  character with code `b`, so the ASCII literals of the source read unchanged.
  Every function below only compares elements with ASCII literals, hence every
  statement quantified over `GoString` covers every byte string.
* `strconv.ParseFloat` and the `float64` constants `0` and `1` belong to the Go
  library, not to this repository: they are parameters (`Float64 V`).
* A Go run-time panic is an explicit outcome that carries the gauges as they
  stood when the panic was raised.
-/

namespace FioExporter

set_option maxRecDepth 1000000

/-- A Go string: a sequence of bytes, each byte written as a character. -/
abbrev GoString := List Char

/-- The run-time panics the decoder can raise. -/
inductive GoPanic where
  /-- Raised by `s[0:6]` when `len(s) < 6`. -/
  | sliceBoundsOutOfRange
  /-- Raised by `xs[i]` when `i >= len(xs)`. -/
  | indexOutOfRange
  deriving DecidableEq, Repr

/-! ## The functions of package `strings` used by `main.go` -/

namespace strings

/-- Go `strings.Split(s, sep)` for a one-byte separator: the pieces of `s` between
the occurrences of `sep`; `n` occurrences give `n + 1` pieces, so the result is
never empty (`Split("", sep)` is `[""]`). -/
def Split (s : GoString) (sep : Char) : List GoString :=
  match s with
  | [] => [[]]
  | c :: cs =>
    if c = sep then [] :: Split cs sep
    else
      match Split cs sep with
      | [] => [[c]]
      | p :: ps => (c :: p) :: ps

/-- Go `trimLeftByte`: drop the leading bytes equal to `c`. -/
def trimLeftByte (s : GoString) (c : Char) : GoString :=
  s.dropWhile (fun x => x == c)

/-- Go `trimRightByte`: drop the trailing bytes equal to `c`. -/
def trimRightByte (s : GoString) (c : Char) : GoString :=
  (s.reverse.dropWhile (fun x => x == c)).reverse

/-- Go `strings.Trim(s, cutset)` for a one-byte ASCII cutset, which the library
computes as `trimLeftByte(trimRightByte(s, c), c)`: all leading and all trailing
bytes equal to `c` are removed. -/
def Trim (s : GoString) (cutset : Char) : GoString :=
  trimLeftByte (trimRightByte s cutset) cutset

/-- Tells whether `p` is an initial segment of `s`. -/
def startsWith : GoString → GoString → Bool
  | _, [] => true
  | [], _ :: _ => false
  | c :: cs, d :: ds => c == d && startsWith cs ds

/-- Go `strings.Contains(s, substr)`: `substr` occurs somewhere within `s`. -/
def Contains (s substr : GoString) : Bool :=
  match s with
  | [] => startsWith [] substr
  | c :: cs => startsWith (c :: cs) substr || Contains cs substr

end strings

/-! ## The gauges -/

/-- The 38 gauge vectors registered in `init`, under the names of their Go
variables.  All of them are used with the single label value `*benchmark`. -/
inductive Metric where
  | fioReadBW | fioReadIOPS
  | fioReadLat90 | fioReadLat95 | fioReadLat99
  | fioReadLatMin | fioReadLatMax | fioReadLatMean
  | fioReadBWMin | fioReadBWMax | fioReadBWMean
  | fioReadIOPSMin | fioReadIOPSMax | fioReadIOPSMean
  | fioWriteBW | fioWriteIOPS
  | fioWriteLat90 | fioWriteLat95 | fioWriteLat99
  | fioWriteLatMin | fioWriteLatMax | fioWriteLatMean
  | fioWriteBWMin | fioWriteBWMax | fioWriteBWMean
  | fioWriteIOPSMin | fioWriteIOPSMax | fioWriteIOPSMean
  | fioCpuUser | fioCpuSys
  | fioIODepth1 | fioIODepth2 | fioIODepth4 | fioIODepth8
  | fioIODepth16 | fioIODepth32 | fioIODepth64
  | fioBenchmarkSuccess
  deriving DecidableEq, Repr

/-- The published value of every gauge for the label `*benchmark`; `none` for a
gauge that has never been set. -/
abbrev Gauges (V : Type) := Metric → Option V

/-- Go `gauge.WithLabelValues(*benchmark).Set(v)`. -/
def Gauges.Set {V : Type} (g : Gauges V) (m : Metric) (v : V) : Gauges V :=
  fun k => if k = m then some v else g k

/-- The part of the Go library the decoder depends on: `ParseFloat s` is
`some v` when `strconv.ParseFloat(s, 64)` returns `v` with a nil error and
`none` when the error is not nil; `zero` and `one` are the `float64` constants
handed to `fioBenchmarkSuccess`. -/
structure Float64 (V : Type) where
  ParseFloat : GoString → Option V
  zero : V
  one : V

/-- How the body of the scan loop ends for one line, or for a whole sequence of
lines, together with the gauges at that point. -/
inductive Outcome (V : Type) where
  /-- The code ran to its end. -/
  | done (g : Gauges V)
  /-- A run-time panic stopped the program. -/
  | panicked (p : GoPanic) (g : Gauges V)

/-- The gauges when the code stopped. -/
def Outcome.gauges {V : Type} : Outcome V → Gauges V
  | .done g => g
  | .panicked _ g => g

/-- Tells whether the code stopped on a run-time panic. -/
def Outcome.crashed {V : Type} : Outcome V → Bool
  | .done _ => false
  | .panicked _ _ => true

/-! ## The decoder -/

/-- The three shapes of argument handed to `strconv.ParseFloat`. -/
inductive Transform where
  /-- The shape `parts[i]`. -/
  | plain
  /-- The shape `strings.Split(parts[i], "=")[1]`. -/
  | splitEq
  /-- The shape `strings.Trim(parts[i], "%")`. -/
  | trimPct
  deriving DecidableEq, Repr

/-- One `ParseFloat` block: the gauge it sets, the index into `parts` and the
shape of the argument. -/
structure Target where
  metric : Metric
  index : Nat
  transform : Transform
  deriving DecidableEq, Repr

/-- The 37 blocks between `START PARSE` and `END PARSE`, in source order. -/
def targets : List Target :=
  [ ⟨.fioReadBW, 6, .plain⟩, ⟨.fioReadIOPS, 7, .plain⟩,
    ⟨.fioReadLat90, 27, .splitEq⟩, ⟨.fioReadLat95, 28, .splitEq⟩,
    ⟨.fioReadLat99, 29, .splitEq⟩,
    ⟨.fioReadLatMin, 37, .plain⟩, ⟨.fioReadLatMax, 38, .plain⟩,
    ⟨.fioReadLatMean, 39, .plain⟩,
    ⟨.fioReadBWMin, 41, .plain⟩, ⟨.fioReadBWMax, 42, .plain⟩,
    ⟨.fioReadBWMean, 44, .plain⟩,
    ⟨.fioReadIOPSMin, 47, .plain⟩, ⟨.fioReadIOPSMax, 48, .plain⟩,
    ⟨.fioReadIOPSMean, 49, .plain⟩,
    ⟨.fioWriteBW, 53, .plain⟩, ⟨.fioWriteIOPS, 54, .plain⟩,
    ⟨.fioWriteLat90, 74, .splitEq⟩, ⟨.fioWriteLat95, 75, .splitEq⟩,
    ⟨.fioWriteLat99, 76, .splitEq⟩,
    ⟨.fioWriteLatMin, 84, .plain⟩, ⟨.fioWriteLatMax, 85, .plain⟩,
    ⟨.fioWriteLatMean, 86, .plain⟩,
    ⟨.fioWriteBWMin, 88, .plain⟩, ⟨.fioWriteBWMax, 89, .plain⟩,
    ⟨.fioWriteBWMean, 91, .plain⟩,
    ⟨.fioWriteIOPSMin, 94, .plain⟩, ⟨.fioWriteIOPSMax, 95, .plain⟩,
    ⟨.fioWriteIOPSMean, 96, .plain⟩,
    ⟨.fioCpuUser, 146, .trimPct⟩, ⟨.fioCpuSys, 147, .trimPct⟩,
    ⟨.fioIODepth1, 151, .trimPct⟩, ⟨.fioIODepth2, 152, .trimPct⟩,
    ⟨.fioIODepth4, 153, .trimPct⟩, ⟨.fioIODepth8, 154, .trimPct⟩,
    ⟨.fioIODepth16, 155, .trimPct⟩, ⟨.fioIODepth32, 156, .trimPct⟩,
    ⟨.fioIODepth64, 157, .trimPct⟩ ]

/-- Go `xs[i]` on a slice: a run-time panic when `i` is out of range. -/
def index {α : Type} (xs : List α) (i : Nat) : Except GoPanic α :=
  match xs[i]? with
  | some x => .ok x
  | none => .error .indexOutOfRange

/-- The argument expression of one block's `strconv.ParseFloat` call. -/
def parseArg (parts : List GoString) (t : Target) : Except GoPanic GoString :=
  match t.transform with
  | .plain => index parts t.index
  | .splitEq =>
    match index parts t.index with
    | .error p => .error p
    | .ok f => index (strings.Split f '=') 1
  | .trimPct =>
    match index parts t.index with
    | .error p => .error p
    | .ok f => .ok (strings.Trim f '%')

/-- One block: evaluate the argument, call `ParseFloat`; when `err != nil` set
`fioBenchmarkSuccess` to 0, otherwise set the block's gauge to the parsed value. -/
def parseBlock {V : Type} (F : Float64 V) (parts : List GoString) (g : Gauges V)
    (t : Target) : Outcome V :=
  match parseArg parts t with
  | .error p => .panicked p g
  | .ok a =>
    match F.ParseFloat a with
    | none => .done (g.Set .fioBenchmarkSuccess F.zero)
    | some v => .done (g.Set t.metric v)

/-- The blocks of `ts` run one after the other; a panic stops the program. -/
def parseBlocks {V : Type} (F : Float64 V) (parts : List GoString) :
    Gauges V → List Target → Outcome V
  | g, [] => .done g
  | g, t :: ts =>
    match parseBlock F parts g t with
    | .done g1 => parseBlocks F parts g1 ts
    | .panicked p g1 => .panicked p g1

/-- The terse-v5 signature compared with `s[0:6]`. -/
def signature : GoString := "5;fio-".toList

/-- The body of the `for scanner.Scan()` loop for the line `s`: `s[0:6]` panics on
a line shorter than six bytes; a line without the signature is skipped
(`continue`); otherwise the line is split on `;`, `fioBenchmarkSuccess` is set
to 1 and the 37 blocks run. -/
def processLine {V : Type} (F : Float64 V) (g : Gauges V) (s : GoString) : Outcome V :=
  if s.length < 6 then .panicked .sliceBoundsOutOfRange g
  else if s.take 6 ≠ signature then .done g
  else parseBlocks F (strings.Split s ';') (g.Set .fioBenchmarkSuccess F.one) targets

/-- The `for scanner.Scan()` loop over the lines of one run. -/
def scanLoop {V : Type} (F : Float64 V) : Gauges V → List GoString → Outcome V
  | g, [] => .done g
  | g, s :: rest =>
    match processLine F g s with
    | .done g1 => scanLoop F g1 rest
    | .panicked p g1 => .panicked p g1

/-! ## The start-up checks of `main` -/

/-- The command-line flags read by the code between `END FLAGS` and the first
`exec.Command`. -/
structure Flags where
  benchmark : GoString
  customFioBenchmarkFlags : GoString
  directory : GoString
  fileSize : GoString
  benchmarkRuntime : GoString
  statusUpdates : Bool
  statusUpdateInterval : GoString

/-- The string `"custom"`. -/
def custom : GoString := "custom".toList

/-- The `switch *benchmark` that chooses `fioBenchmarkFlags`. -/
def fioBenchmarkFlags (benchmark : GoString) : GoString :=
  if benchmark = "iops".toList then
    "--name=iops --numjobs=4 --ioengine=libaio --direct=1 --bs=4k --iodepth=128 --readwrite=randrw".toList
  else if benchmark = "latency".toList then
    "--name=latency --numjobs=1 --ioengine=libaio --direct=1 --bs=4k --iodepth=1 --readwrite=randrw".toList
  else if benchmark = "throughput".toList then
    "--name=throughput --numjobs=4 --ioengine=libaio --direct=1 --bs=128k --iodepth=64 --readwrite=rw".toList
  else if benchmark = custom then []
  else
    "--name=latency --numjobs=1 --ioengine=libaio --direct=1 --bs=4k --iodepth=1 --readwrite=randrw".toList

/-- The message of the first `log.Fatal`. -/
def msgCustomMissing : GoString :=
  "customFioBenchmarkFlags must be used when benchmark is custom".toList

/-- The message of the second `log.Fatal`. -/
def msgOutput : GoString :=
  "customFioBenchmarkFlags cannot contain the flag --output-format or --output".toList

/-- The message of the third `log.Fatal`. -/
def msgPercentile : GoString :=
  "customFioBenchmarkFlags cannot contain any percentile related flags".toList

/-- The three guards on the custom profile, in source order: `some msg` when one
of them calls `log.Fatal(msg)`, `none` when all three are passed. -/
def customChecks (benchmark customFioBenchmarkFlags : GoString) : Option GoString :=
  if benchmark = custom ∧ customFioBenchmarkFlags = [] then some msgCustomMissing
  else if benchmark = custom ∧ strings.Contains customFioBenchmarkFlags "output".toList = true then
    some msgOutput
  else if benchmark = custom ∧ strings.Contains customFioBenchmarkFlags "percentile".toList = true then
    some msgPercentile
  else none

/-- The tail shared by the three `fmt.Sprintf` formats of the fio command line. -/
def terseFlags : GoString :=
  "--output-format=terse --terse-version=5 --lat_percentiles=1 --clat_percentiles=0 --group_reporting".toList

/-- The `cmd` string built by `fmt.Sprintf` at the head of a scheduler iteration. -/
def fioCmd (fl : Flags) : GoString :=
  if fl.benchmark ≠ custom then
    if !fl.statusUpdates then
      "fio ".toList ++ fioBenchmarkFlags fl.benchmark ++ " --directory=".toList ++ fl.directory
        ++ " --size=".toList ++ fl.fileSize ++ " --runtime=".toList ++ fl.benchmarkRuntime
        ++ " --time_based ".toList ++ terseFlags
    else
      "fio ".toList ++ fioBenchmarkFlags fl.benchmark ++ " --status-interval=".toList
        ++ fl.statusUpdateInterval ++ " --directory=".toList ++ fl.directory
        ++ " --size=".toList ++ fl.fileSize ++ " --runtime=".toList ++ fl.benchmarkRuntime
        ++ " --time_based ".toList ++ terseFlags
  else
    "fio ".toList ++ terseFlags ++ " ".toList ++ fl.customFioBenchmarkFlags

/-- What `main` does, in order, up to the first process it spawns. -/
inductive Event where
  /-- The call `log.Fatal(msg)`: the message is logged and the process ends with
  `os.Exit(exitCode)`. -/
  | fatal (exitCode : Nat) (msg : GoString)
  /-- The statement `go func() { ... }()` that starts the scheduler goroutine. -/
  | goScheduler
  /-- The call `exec.Command(name, args...)` followed by `fioCommand.Start()`. -/
  | spawn (name : GoString) (args : List GoString)
  deriving DecidableEq, Repr

/-- The events of `main` from `flag.Parse()` to the first spawned process.
`log.Fatal` ends the process with status 1, so nothing follows it. -/
def mainStart (fl : Flags) : List Event :=
  match customChecks fl.benchmark fl.customFioBenchmarkFlags with
  | some msg => [.fatal 1 msg]
  | none =>
    match strings.Split (fioCmd fl) ' ' with
    | [] => [.goScheduler]
    | name :: args => [.goScheduler, .spawn name args]

/-! ## The claims' reading of the fields -/

namespace Spec

/-- A percentage field with one final `%` removed, if there is one, and nothing
else changed. -/
def stripTrailingPercent (f : GoString) : GoString :=
  if f.getLast? = some '%' then f.dropLast else f

/-- What follows the first `=` of a field. -/
def afterEq (f : GoString) : GoString :=
  (f.dropWhile (fun c => c != '=')).tail

/-- The number a target field stands for, in the words of the claims: a plain
number; `key=number`, one `=` followed by the number; a number with an optional
final `%`.  A number is a string that `ParseFloat` accepts. -/
def numberOf {V : Type} (F : Float64 V) : Transform → GoString → Option V
  | .plain, f => F.ParseFloat f
  | .splitEq, f =>
    if '=' ∈ f ∧ '=' ∉ afterEq f then F.ParseFloat (afterEq f) else none
  | .trimPct, f =>
    if (stripTrailingPercent f).head? = some '%' ∨ (stripTrailingPercent f).getLast? = some '%'
    then none
    else F.ParseFloat (stripTrailingPercent f)

/-- The claim's "requests an output flag": some blank-separated word of the
argument string begins with `--output` (as `--output=f` and `--output-format=f` do). -/
def usesOutputFlag (flags : GoString) : Bool :=
  (strings.Split flags ' ').any (fun w => strings.startsWith w "--output".toList)

/-- The claim's "requests a percentile-related flag": some blank-separated word
begins with `--` and has `percentile` in its name, the part before `=`. -/
def usesPercentileFlag (flags : GoString) : Bool :=
  (strings.Split flags ' ').any (fun w =>
    strings.startsWith w "--".toList &&
      strings.Contains (w.takeWhile (fun c => c != '=')) "percentile".toList)

end Spec

/-! ## A concrete parser and concrete lines, for evaluation -/

/-- An unsigned decimal `mantissa / 10 ^ scale`. -/
structure Decimal where
  mantissa : Nat
  scale : Nat
  deriving DecidableEq, Repr

/-- The value of a string of decimal digits, `none` when another byte occurs. -/
def digitsValue : GoString → Nat → Option Nat
  | [], acc => some acc
  | c :: cs, acc =>
    if c.isDigit then digitsValue cs (acc * 10 + (c.toNat - 48)) else none

/-- A parser for the unsigned decimals `123` and `123.45`, which
`strconv.ParseFloat` accepts as well; everything else is refused. -/
def parseDecimal (s : GoString) : Option Decimal :=
  match strings.Split s '.' with
  | [i] => if i = [] then none else (digitsValue i 0).map (fun m => ⟨m, 0⟩)
  | [i, f] =>
    if i = [] ∨ f = [] then none
    else (digitsValue (i ++ f) 0).map (fun m => ⟨m, f.length⟩)
  | _ => none

/-- The decimal parser as an instance of the library interface. -/
def decimalF : Float64 Decimal := ⟨parseDecimal, ⟨0, 0⟩, ⟨1, 0⟩⟩

/-- The state in which no gauge has been set. -/
def noGauges : Gauges Decimal := fun _ => none

/-- Joins fields with `;`. -/
def joinFields : List GoString → GoString
  | [] => []
  | [f] => f
  | f :: fs => f ++ ';' :: joinFields fs

/-- A terse-v5 line of 160 fields in which every target field is numeric. -/
def goodLine : GoString :=
  "5;fio-3.28;latency;0;0;0;3522;880.5;0;0;0;0;0;0;0;0;0;0;0;0;0;0;0;0;0;0;0;90.000000%=1680;95.000000%=2024;99.000000%=4113;0;0;0;0;0;0;0;412;90211;1129.7;0;2960;3904;0;3521.2;0;0;740;976;880.3;0;0;0;3498;874.5;0;0;0;0;0;0;0;0;0;0;0;0;0;0;0;0;0;0;0;90.000000%=1713;95.000000%=2057;99.000000%=4228;0;0;0;0;0;0;0;455;88120;1140.2;0;2912;3880;0;3497.6;0;0;728;970;874.4;0;0;0;0;0;0;0;0;0;0;0;0;0;0;0;0;0;0;0;0;0;0;0;0;0;0;0;0;0;0;0;0;0;0;0;0;0;0;0;0;0;0;0;0;0;0;0;0;0;1.25%;4.5%;0;0;0;100.0%;0.0%;0.0%;0.0%;0.0%;0.0%;0.0%;0;0".toList

/-- The fields of `goodLine`. -/
def goodFields : List GoString := strings.Split goodLine ';'

/-- The line `goodLine` with field 27 (read latency, 90th percentile) replaced by
`abc`, which is not a number and holds no `=`. -/
def lineBadPercentile : GoString := joinFields (goodFields.set 27 "abc".toList)

/-- The line `goodLine` with field 74 (write latency, 90th percentile) replaced by
the bare number `1713`, without `key=`. -/
def lineMissingEq : GoString := joinFields (goodFields.set 74 "1713".toList)

/-- A signature-bearing line cut after field 6: seven fields. -/
def lineTruncated : GoString := "5;fio-3.28;latency;0;0;0;3522".toList

/-- The line `goodLine` with field 146 (CPU user) replaced by `%1.25`. -/
def lineLeadingPercent : GoString := joinFields (goodFields.set 146 "%1.25".toList)

/-- The line `goodLine` with field 7 (read IOPS) replaced by `n/a`. -/
def lineBadIOPS : GoString := joinFields (goodFields.set 7 "n/a".toList)

/-- A banner line of fio without the terse signature. -/
def lineBanner : GoString := "fio-3.28 starting 1 process".toList

/-- Flags selecting the custom profile without custom arguments. -/
def flagsCustomEmpty : Flags :=
  ⟨custom, [], "/tmp".toList, "1G".toList, "60".toList, false, "30".toList⟩

/-- The default flags: the `latency` profile. -/
def flagsLatency : Flags :=
  ⟨"latency".toList, [], "/tmp".toList, "1G".toList, "60".toList, false, "30".toList⟩

/-- The value one block hands to its gauge: `none` when the block panics or
`ParseFloat` returns an error. -/
def decodeField {V : Type} (F : Float64 V) (parts : List GoString) (t : Target) : Option V :=
  match parseArg parts t with
  | .ok a => F.ParseFloat a
  | .error _ => none

/-- The number the claims read in the target field of `t`: `none` when the field
is missing or is not numeric. -/
def Spec.fieldNumber {V : Type} (F : Float64 V) (parts : List GoString) (t : Target) :
    Option V :=
  (parts[t.index]?).bind (Spec.numberOf F t.transform)

/-- The indices of the percentage-valued fields. -/
def percentIndices : List Nat := [146, 147, 151, 152, 153, 154, 155, 156, 157]

/-! ## The read and the write halves of the table -/

/-- The write gauge named after a read gauge: `fioReadX` and `fioWriteX`. -/
def writeOf : Metric → Option Metric
  | .fioReadBW => some .fioWriteBW
  | .fioReadIOPS => some .fioWriteIOPS
  | .fioReadLat90 => some .fioWriteLat90
  | .fioReadLat95 => some .fioWriteLat95
  | .fioReadLat99 => some .fioWriteLat99
  | .fioReadLatMin => some .fioWriteLatMin
  | .fioReadLatMax => some .fioWriteLatMax
  | .fioReadLatMean => some .fioWriteLatMean
  | .fioReadBWMin => some .fioWriteBWMin
  | .fioReadBWMax => some .fioWriteBWMax
  | .fioReadBWMean => some .fioWriteBWMean
  | .fioReadIOPSMin => some .fioWriteIOPSMin
  | .fioReadIOPSMax => some .fioWriteIOPSMax
  | .fioReadIOPSMean => some .fioWriteIOPSMean
  | _ => none

/-- The 14 read measurements: bandwidth, IOPS, latency percentiles 90/95/99,
latency min/max/mean, bandwidth min/max/mean, IOPS min/max/mean. -/
def readMetrics : List Metric :=
  [ .fioReadBW, .fioReadIOPS, .fioReadLat90, .fioReadLat95, .fioReadLat99,
    .fioReadLatMin, .fioReadLatMax, .fioReadLatMean,
    .fioReadBWMin, .fioReadBWMax, .fioReadBWMean,
    .fioReadIOPSMin, .fioReadIOPSMax, .fioReadIOPSMean ]

/-! ## The scheduler goroutine

The goroutine started by `go func()` in `main`, the timers it arms with
`time.AfterFunc` and the channel `ch` of capacity 1, as a labelled transition
system.  Time is a number of nanoseconds; a timer armed for `d` may fire at any
instant not before its deadline, and `time.Sleep(d)` may return at any instant
not before its deadline, as the Go run time promises no more.  The main
goroutine, which serves HTTP, is outside the model. -/

/-- The flags read by the scheduler; a `time.Duration` is a number of nanoseconds. -/
structure SchedFlags where
  /-- The flag `interval` (`*duration`). -/
  duration : Int
  /-- The flag `runOnce`. -/
  runOnce : Bool
  /-- The flag `runOnceWait`. -/
  runOnceWait : Int
  deriving DecidableEq, Repr

/-- The statement the scheduler goroutine executes next. -/
inductive PC where
  /-- The receive `<-ch` at the head of the loop. -/
  | recv
  /-- The call `time.AfterFunc(*duration, func() { ch <- struct{}{} })`. -/
  | arm
  /-- From the construction of `cmd` to `fioCommand.Start()`. -/
  | launch
  /-- The run is in flight: the scan loop, then `fioCommand.Wait()`. -/
  | inFlight
  /-- Inside `time.Sleep(*runOnceWait)`, which returns at `wake` or later. -/
  | sleep (wake : Int)
  /-- The process has ended with the given status. -/
  | exited (code : Nat)
  deriving DecidableEq, Repr

/-- The state of the scheduler.  The fields from `iter` on record the history and
are read by no transition. -/
structure Sched where
  /-- The current instant. -/
  now : Int
  /-- Tells whether the buffer of `ch` holds its one element. -/
  token : Bool
  /-- The number of timer callbacks blocked in `ch <- struct{}{}`. -/
  blocked : Nat
  /-- The timers armed and not yet fired: the iteration that armed the timer and
  its deadline. -/
  timers : List (Nat × Int)
  pc : PC
  /-- The number of iterations of the loop begun: receives from `ch`. -/
  iter : Nat
  /-- The number of timers armed. -/
  armed : Nat
  /-- The number of runs started: `fioCommand.Start()` returned without error. -/
  started : Nat
  /-- The number of runs over: `fioCommand.Wait()` returned. -/
  finished : Nat
  /-- The instant at which the last `fioCommand.Wait()` returned without error. -/
  lastFinish : Int
  /-- The iterations whose timer has fired, the latest first. -/
  fired : List Nat
  deriving DecidableEq, Repr

/-- The state after `ch := make(chan struct{}, 1)` and `ch <- struct{}{}`. -/
def Sched.init : Sched :=
  { now := 0, token := true, blocked := 0, timers := [], pc := .recv, iter := 0,
    armed := 0, started := 0, finished := 0, lastFinish := 0, fired := [] }

/-- What can happen next. -/
inductive Action where
  /-- The amount `dt` of time passes. -/
  | tick (dt : Nat)
  /-- The armed timer number `i` fires and its callback sends on `ch`. -/
  | fire (i : Nat)
  /-- The scheduler goroutine completes the statement it is at, without error. -/
  | next
  /-- The statement the goroutine is at returns an error and `log.Fatalf` is
  called: the pipes or `Start` before the run, `Wait` at its end. -/
  | fatal
  /-- The decoder panics while the run is in flight. -/
  | panic
  deriving DecidableEq, Repr

/-- One transition; `none` when the action is not enabled.  Nothing happens after
the process has ended. -/
def step (fl : SchedFlags) (s : Sched) (a : Action) : Option Sched :=
  match s.pc with
  | .exited _ => none
  | pc =>
    match a with
    | .tick dt => some { s with now := s.now + dt }
    | .fire i =>
      match s.timers[i]? with
      | none => none
      | some (k, d) =>
        if d ≤ s.now then
          some { s with
            timers := s.timers.eraseIdx i
            fired := k :: s.fired
            token := true
            blocked := if s.token then s.blocked + 1 else s.blocked }
        else none
    | .next =>
      match pc with
      | .recv =>
        if s.token then
          some { s with
            token := decide (0 < s.blocked)
            blocked := s.blocked - 1
            pc := .arm
            iter := s.iter + 1 }
        else none
      | .arm =>
        some { s with
          timers := s.timers ++ [(s.iter, s.now + fl.duration)]
          armed := s.armed + 1
          pc := .launch }
      | .launch => some { s with started := s.started + 1, pc := .inFlight }
      | .inFlight =>
        some { s with
          finished := s.finished + 1
          lastFinish := s.now
          pc := if fl.runOnce then .sleep (s.now + fl.runOnceWait) else .recv }
      | .sleep wake => if wake ≤ s.now then some { s with pc := .exited 0 } else none
      | .exited _ => none
    | .fatal =>
      match pc with
      | .launch => some { s with pc := .exited 1 }
      | .inFlight => some { s with finished := s.finished + 1, pc := .exited 1 }
      | _ => none
    | .panic =>
      match pc with
      | .inFlight => some { s with pc := .exited 2 }
      | _ => none

/-- The state reached by a sequence of actions; `none` when one is not enabled. -/
def exec (fl : SchedFlags) : Sched → List Action → Option Sched
  | s, [] => some s
  | s, a :: as =>
    match step fl s a with
    | some s1 => exec fl s1 as
    | none => none

/-- The number of runs in flight. -/
def Sched.inFlight (s : Sched) : Nat := s.started - s.finished

/-- A run-once execution: the run, the timer firing during the wait, the exit. -/
def runOnceTrace : List Action :=
  [.next, .next, .next, .tick 5, .next, .tick 6, .fire 0, .tick 7, .next]

/-- A repeat execution: two runs, the first shorter than the interval, the second
longer, up to the start of a third. -/
def repeatTrace : List Action :=
  [.next, .next, .next, .tick 4, .next, .tick 6, .fire 0, .next, .next, .next,
   .tick 10, .fire 0, .tick 5, .next, .next, .next]

/-- Repeat mode with an interval of 10. -/
def flagsRepeat : SchedFlags := ⟨10, false, 8⟩

/-- Run-once mode with an interval of 10 and a wait of 8. -/
def flagsOnce : SchedFlags := ⟨10, true, 8⟩

/-- The state `repeatTrace` leads to: the third run is about to start. -/
def repeatState : Sched :=
  { now := 25, token := false, blocked := 0, timers := [(3, 35)], pc := .launch, iter := 3,
    armed := 3, started := 2, finished := 2, lastFinish := 25, fired := [2, 1] }

/-- The state `runOnceTrace` leads to: the process has ended with status 0. -/
def runOnceState : Sched :=
  { now := 18, token := true, blocked := 0, timers := [], pc := .exited 0, iter := 1,
    armed := 1, started := 1, finished := 1, lastFinish := 5, fired := [1] }

/-- The shortest run-once execution: the run, the wait, the exit. -/
def straightTrace (fl : SchedFlags) : List Action :=
  [.next, .next, .next, .next, .tick fl.runOnceWait.toNat, .next]

/-- The invariant of the scheduler. -/
structure Inv (fl : SchedFlags) (s : Sched) : Prop where
  /-- No timer callback is blocked in its send. -/
  noBlocked : s.blocked = 0
  /-- One unit circulates: the token in the channel, an armed timer, or the
  goroutine between its receive and `time.AfterFunc`. -/
  units : (if s.token then 1 else 0) + s.timers.length + (if s.pc = .arm then 1 else 0) = 1
  /-- An armed timer belongs to the current iteration. -/
  timerIter : ∀ p ∈ s.timers, p.1 = s.iter
  /-- The timers of the earlier iterations have fired. -/
  firedBefore : ∀ k, 1 ≤ k → k < s.iter → k ∈ s.fired
  /-- When the token is in the channel the timer of the current iteration has
  fired too. -/
  firedToken : s.token = true → ∀ k, 1 ≤ k → k ≤ s.iter → k ∈ s.fired
  /-- One timer is armed per iteration. -/
  armedIter : s.armed + (if s.pc = .arm then 1 else 0) = s.iter
  finishedLe : s.finished ≤ s.started
  startedLe : s.started ≤ s.finished + 1
  startedIter : s.started ≤ s.iter
  iterLe : s.iter ≤ s.started + 1
  atRecv : s.pc = .recv → s.started = s.iter ∧ s.finished = s.iter
  atArm : s.pc = .arm → s.started + 1 = s.iter ∧ s.finished = s.started
  atLaunch : s.pc = .launch → s.started + 1 = s.iter ∧ s.finished = s.started
  atInFlight : s.pc = .inFlight → s.started = s.iter ∧ s.finished + 1 = s.started
  atSleep : ∀ w, s.pc = .sleep w →
    fl.runOnce = true ∧ s.started = 1 ∧ s.finished = 1 ∧ w = s.lastFinish + fl.runOnceWait
  atExit0 : s.pc = .exited 0 →
    fl.runOnce = true ∧ s.started = 1 ∧ s.finished = 1 ∧
      s.lastFinish + fl.runOnceWait ≤ s.now
  once : fl.runOnce = true → s.iter ≤ 1 ∧ (s.pc = .recv → s.iter = 0)

/-! ## Lemmas on `strings.Split` and `strings.Trim` -/

theorem Split_ne_nil (s : GoString) (sep : Char) : strings.Split s sep ≠ [] := by
  cases s with
  | nil => simp [strings.Split]
  | cons c cs =>
    unfold strings.Split
    split
    · simp
    · split <;> simp

theorem Split_cons_sep (cs : GoString) (sep : Char) :
    strings.Split (sep :: cs) sep = [] :: strings.Split cs sep := by
  rw [strings.Split]; simp

theorem Split_cons_ne (c : Char) (cs : GoString) (sep : Char) (h : c ≠ sep) :
    strings.Split (c :: cs) sep =
      (c :: (strings.Split cs sep).headD []) :: (strings.Split cs sep).tail := by
  rw [strings.Split]
  simp only [h, if_false]
  cases hsp : strings.Split cs sep with
  | nil => exact absurd hsp (Split_ne_nil cs sep)
  | cons p ps => simp

theorem Split_of_not_mem (s : GoString) (sep : Char) (h : sep ∉ s) :
    strings.Split s sep = [s] := by
  induction s with
  | nil => simp [strings.Split]
  | cons c cs ih =>
    have hc : c ≠ sep := fun e => h (by simp [e])
    have hcs : sep ∉ cs := fun e => h (by simp [e])
    rw [Split_cons_ne c cs sep hc, ih hcs]
    simp

theorem Split_append_sep (k n : GoString) (sep : Char) (h : sep ∉ k) :
    strings.Split (k ++ sep :: n) sep = k :: strings.Split n sep := by
  induction k with
  | nil => exact Split_cons_sep n sep
  | cons c cs ih =>
    have hc : c ≠ sep := fun e => h (by simp [e])
    have hcs : sep ∉ cs := fun e => h (by simp [e])
    show strings.Split (c :: (cs ++ sep :: n)) sep = _
    rw [Split_cons_ne c _ sep hc, ih hcs]
    simp

theorem Split_length_le_one_iff (s : GoString) (sep : Char) :
    (strings.Split s sep).length ≤ 1 ↔ sep ∉ s := by
  induction s with
  | nil => simp [strings.Split]
  | cons c cs ih =>
    by_cases hc : c = sep
    · subst hc
      have := Split_ne_nil cs c
      rw [Split_cons_sep]
      simp [List.length_pos, this]
    · have h2 : ¬ sep = c := fun e => hc e.symm
      rw [Split_cons_ne c cs sep hc]
      simp only [List.mem_cons, h2, false_or]
      rw [← ih]
      cases hsp : strings.Split cs sep with
      | nil => simp
      | cons p ps => simp

/-- What `strings.Trim(f, "%")` returns: `f` is `a ++ r ++ b` with `a` and `b` made
of `%` only and `r`, the result, neither starting nor ending with `%`. -/
theorem Trim_spec (f : GoString) (c : Char) :
    ∃ a b, f = a ++ strings.Trim f c ++ b ∧ (∀ x ∈ a, x = c) ∧ (∀ x ∈ b, x = c) ∧
      (strings.Trim f c).head? ≠ some c ∧ (strings.Trim f c).getLast? ≠ some c := by
  let p : Char → Bool := fun x => x == c
  have hR : f.reverse = f.reverse.takeWhile p ++ f.reverse.dropWhile p :=
    (List.takeWhile_append_dropWhile p f.reverse).symm
  have hf : f = (f.reverse.dropWhile p).reverse ++ (f.reverse.takeWhile p).reverse := by
    have h0 := congrArg List.reverse hR
    rw [List.reverse_reverse, List.reverse_append] at h0
    exact h0
  have hT : (f.reverse.dropWhile p).reverse
      = ((f.reverse.dropWhile p).reverse).takeWhile p ++ strings.Trim f c :=
    (List.takeWhile_append_dropWhile p _).symm
  refine ⟨((f.reverse.dropWhile p).reverse).takeWhile p, (f.reverse.takeWhile p).reverse,
    ?_, ?_, ?_, ?_, ?_⟩
  · rw [← hT]; exact hf
  · intro x hx
    have := List.mem_takeWhile_imp hx
    simpa [p] using this
  · intro x hx
    have := List.mem_takeWhile_imp (List.mem_reverse.mp hx)
    simpa [p] using this
  · intro h
    have := List.head?_dropWhile_not p ((f.reverse.dropWhile p).reverse)
    have h2 : (List.dropWhile p (f.reverse.dropWhile p).reverse).head? = some c := h
    rw [h2] at this
    simp [p] at this
  · intro h
    obtain ⟨ys, hys⟩ := List.getLast?_eq_some_iff.mp h
    have h4 : ((f.reverse.dropWhile p).reverse).getLast? = some c := by
      rw [hT, hys, ← List.append_assoc, List.getLast?_concat]
    rw [List.getLast?_reverse] at h4
    have := List.head?_dropWhile_not p f.reverse
    rw [h4] at this
    simp [p] at this

theorem Trim_of_clean (n : GoString) (c : Char) (hh : n.head? ≠ some c)
    (hl : n.getLast? ≠ some c) : strings.Trim n c = n := by
  have h1 : strings.trimRightByte n c = n := by
    unfold strings.trimRightByte
    cases hr : n.reverse with
    | nil => simp at hr; simp [hr]
    | cons x xs =>
      have hx : n.getLast? = some x := by
        rw [← List.head?_reverse, hr]; rfl
      have : x ≠ c := fun e => hl (by rw [hx, e])
      rw [List.dropWhile_cons_of_neg (by simpa using this), ← hr, List.reverse_reverse]
  unfold strings.Trim
  rw [h1]
  unfold strings.trimLeftByte
  cases n with
  | nil => rfl
  | cons x xs =>
    have : x ≠ c := fun e => hh (by simp [e])
    rw [List.dropWhile_cons_of_neg (by simpa using this)]

theorem Trim_concat (n : GoString) (c : Char) :
    strings.Trim (n ++ [c]) c = strings.Trim n c := by
  unfold strings.Trim strings.trimRightByte
  simp

/-! ## Lemmas on the blocks -/

theorem Set_same {V : Type} (g : Gauges V) (m : Metric) (v : V) : (g.Set m v) m = some v := by
  simp [Gauges.Set]

theorem Set_other {V : Type} (g : Gauges V) {k m : Metric} (v : V) (h : k ≠ m) :
    (g.Set m v) k = g k := by
  simp [Gauges.Set, h]

/-- A reading the claims accept is the value the block of the code decodes. -/
theorem decodeField_of_fieldNumber {V : Type} (F : Float64 V) (parts : List GoString)
    (t : Target) (v : V) (h : Spec.fieldNumber F parts t = some v) :
    decodeField F parts t = some v := by
  unfold Spec.fieldNumber at h
  cases hf : parts[t.index]? with
  | none => rw [hf] at h; cases h
  | some f =>
    rw [hf] at h
    simp only [Option.bind] at h
    unfold decodeField parseArg index
    cases htr : t.transform with
    | plain =>
      rw [htr] at h
      simpa [hf, Spec.numberOf] using h
    | splitEq =>
      rw [htr] at h
      simp only [hf]
      simp only [Spec.numberOf] at h
      split_ifs at h with hc
      obtain ⟨hmem, hn⟩ := hc
      have hcat := List.takeWhile_append_dropWhile (fun c => c != '=') f
      have hk : '=' ∉ f.takeWhile (fun c => c != '=') := by
        intro hmem
        have := List.mem_takeWhile_imp hmem
        simp at this
      cases hd : f.dropWhile (fun c => c != '=') with
      | nil =>
        rw [hd, List.append_nil] at hcat
        rw [← hcat] at hmem
        exact absurd hmem hk
      | cons x n =>
        have hx : x = '=' := by
          have := List.head?_dropWhile_not (fun c => c != '=') f
          rw [hd] at this
          simpa using this
        subst hx
        have hn2 : Spec.afterEq f = n := by unfold Spec.afterEq; rw [hd]; rfl
        rw [hn2] at h hn
        rw [hd] at hcat
        rw [← hcat, Split_append_sep _ _ _ hk, Split_of_not_mem _ _ hn]
        simpa using h
    | trimPct =>
      rw [htr] at h
      simp only [hf]
      simp only [Spec.numberOf] at h
      split_ifs at h with hc
      have hclean2 := not_or.mp hc
      have : strings.Trim f '%' = Spec.stripTrailingPercent f := by
        by_cases hlast : f.getLast? = some '%'
        · have hfe : f = f.dropLast ++ ['%'] :=
            (List.dropLast_append_getLast? '%' (by simp [hlast])).symm
          have hs : Spec.stripTrailingPercent f = f.dropLast := by
            simp [Spec.stripTrailingPercent, hlast]
          rw [hs] at hclean2 ⊢
          rw [hfe, Trim_concat, List.dropLast_concat]
          exact Trim_of_clean _ _ hclean2.1 hclean2.2
        · have hs : Spec.stripTrailingPercent f = f := by
            simp [Spec.stripTrailingPercent, hlast]
          rw [hs] at hclean2 ⊢
          exact Trim_of_clean _ _ hclean2.1 hclean2.2
      simpa [this] using h

/-- A block leaves the gauge `m` alone unless it is the block of `m` and its field
decodes; `fioBenchmarkSuccess` is the one gauge a failing block may write. -/
theorem parseBlock_frame {V : Type} (F : Float64 V) (parts : List GoString) (g : Gauges V)
    (t : Target) (m : Metric) (hm : m ≠ .fioBenchmarkSuccess)
    (h : t.metric = m → decodeField F parts t = none) :
    (parseBlock F parts g t).gauges m = g m := by
  unfold parseBlock
  unfold decodeField at h
  cases ha : parseArg parts t with
  | error p => simp [Outcome.gauges]
  | ok a =>
    simp only [ha] at h ⊢
    cases hp : F.ParseFloat a with
    | none => simp [Outcome.gauges, Set_other g _ hm]
    | some v =>
      have hne : m ≠ t.metric := by
        intro e
        have := h e.symm
        rw [hp] at this
        cases this
      simp [Outcome.gauges, Set_other g _ hne]

theorem parseBlocks_frame {V : Type} (F : Float64 V) (parts : List GoString)
    (ts : List Target) (g : Gauges V) (m : Metric) (hm : m ≠ .fioBenchmarkSuccess)
    (h : ∀ t ∈ ts, t.metric = m → decodeField F parts t = none) :
    (parseBlocks F parts g ts).gauges m = g m := by
  induction ts generalizing g with
  | nil => rfl
  | cons t ts ih =>
    have hb := parseBlock_frame F parts g t m hm (h t (by simp))
    unfold parseBlocks
    cases hpb : parseBlock F parts g t with
    | done g1 =>
      rw [hpb] at hb
      simp only
      rw [ih g1 (fun t' ht' => h t' (by simp [ht']))]
      exact hb
    | panicked p g1 =>
      rw [hpb] at hb
      exact hb

/-- A block whose argument expression panics stops the program. -/
theorem parseBlocks_crash {V : Type} (F : Float64 V) (parts : List GoString)
    (ts : List Target) (g : Gauges V) (t : Target) (p : GoPanic) (ht : t ∈ ts)
    (h : parseArg parts t = .error p) : (parseBlocks F parts g ts).crashed = true := by
  induction ts generalizing g with
  | nil => cases ht
  | cons t' ts ih =>
    unfold parseBlocks
    cases hpb : parseBlock F parts g t' with
    | panicked p g1 => rfl
    | done g1 =>
      simp only
      rcases List.mem_cons.mp ht with e | hmem
      · subst e
        unfold parseBlock at hpb
        rw [h] at hpb
        cases hpb
      · exact ih g1 hmem

/-- When no argument expression panics the blocks run to the end. -/
theorem parseBlocks_done {V : Type} (F : Float64 V) (parts : List GoString)
    (ts : List Target) (g : Gauges V)
    (h : ∀ t ∈ ts, ∃ a, parseArg parts t = .ok a) :
    ∃ g1, parseBlocks F parts g ts = .done g1 := by
  induction ts generalizing g with
  | nil => exact ⟨g, rfl⟩
  | cons t ts ih =>
    obtain ⟨a, ha⟩ := h t (by simp)
    unfold parseBlocks parseBlock
    rw [ha]
    simp only
    cases hp : F.ParseFloat a with
    | none => simp only; exact ih _ (fun t' ht' => h t' (by simp [ht']))
    | some v => simp only; exact ih _ (fun t' ht' => h t' (by simp [ht']))

/-- The gauge of a field that decodes holds the decoded value at the end. -/
theorem parseBlocks_value {V : Type} (F : Float64 V) (parts : List GoString)
    (ts : List Target) (g g1 : Gauges V) (t : Target) (v : V)
    (hdone : parseBlocks F parts g ts = .done g1)
    (hnd : (ts.map Target.metric).Nodup)
    (ht : t ∈ ts) (hm : t.metric ≠ .fioBenchmarkSuccess)
    (hv : decodeField F parts t = some v) : g1 t.metric = some v := by
  induction ts generalizing g with
  | nil => cases ht
  | cons t' ts ih =>
    rw [List.map_cons, List.nodup_cons] at hnd
    unfold parseBlocks at hdone
    cases hpb : parseBlock F parts g t' with
    | panicked p g2 => rw [hpb] at hdone; cases hdone
    | done g2 =>
      rw [hpb] at hdone
      simp only at hdone
      by_cases hmem : t ∈ ts
      · exact ih g2 hdone hnd.2 hmem
      · have e : t = t' := by
          rcases List.mem_cons.mp ht with e | h'
          · exact e
          · exact absurd h' hmem
        subst e
        have hfr := parseBlocks_frame F parts ts g2 t.metric hm (fun t2 ht2 e2 =>
          absurd (List.mem_map.mpr ⟨t2, ht2, e2⟩) hnd.1)
        rw [hdone] at hfr
        simp only [Outcome.gauges] at hfr
        rw [hfr]
        unfold parseBlock at hpb
        unfold decodeField at hv
        cases ha : parseArg parts t with
        | error p => rw [ha] at hv; cases hv
        | ok a =>
          rw [ha] at hv hpb
          simp only at hv hpb
          rw [hv] at hpb
          simp only [Outcome.done.injEq] at hpb
          rw [← hpb]
          exact Set_same g t.metric v

/-- When every field decodes, `fioBenchmarkSuccess` is never written by a block. -/
theorem parseBlocks_success_kept {V : Type} (F : Float64 V) (parts : List GoString)
    (ts : List Target) (g : Gauges V)
    (hs : ∀ t ∈ ts, t.metric ≠ .fioBenchmarkSuccess)
    (h : ∀ t ∈ ts, decodeField F parts t ≠ none) :
    (parseBlocks F parts g ts).gauges .fioBenchmarkSuccess = g .fioBenchmarkSuccess := by
  induction ts generalizing g with
  | nil => rfl
  | cons t ts ih =>
    have h1 := h t (by simp)
    unfold decodeField at h1
    unfold parseBlocks parseBlock
    cases ha : parseArg parts t with
    | error p => rw [ha] at h1; exact absurd rfl h1
    | ok a =>
      rw [ha] at h1
      simp only at h1 ⊢
      cases hp : F.ParseFloat a with
      | none => exact absurd hp h1
      | some v =>
        simp only
        rw [ih _ (fun t' ht' => hs t' (by simp [ht'])) (fun t' ht' => h t' (by simp [ht']))]
        exact Set_other g v (fun e => hs t (by simp) e.symm)

/-- Once `fioBenchmarkSuccess` is 0 the blocks leave it at 0. -/
theorem parseBlocks_success_sticky {V : Type} (F : Float64 V) (parts : List GoString)
    (ts : List Target) (g : Gauges V)
    (hs : ∀ t ∈ ts, t.metric ≠ .fioBenchmarkSuccess)
    (h0 : g .fioBenchmarkSuccess = some F.zero) :
    (parseBlocks F parts g ts).gauges .fioBenchmarkSuccess = some F.zero := by
  induction ts generalizing g with
  | nil => exact h0
  | cons t ts ih =>
    unfold parseBlocks parseBlock
    cases ha : parseArg parts t with
    | error p => exact h0
    | ok a =>
      simp only
      cases hp : F.ParseFloat a with
      | none =>
        exact ih _ (fun t' ht' => hs t' (by simp [ht'])) (Set_same g _ _)
      | some v =>
        refine ih _ (fun t' ht' => hs t' (by simp [ht'])) ?_
        rw [Set_other g v (fun e => hs t (by simp) e.symm)]
        exact h0

/-- When the blocks run to the end and some field failed, `fioBenchmarkSuccess`
ends at 0. -/
theorem parseBlocks_success_zero {V : Type} (F : Float64 V) (parts : List GoString)
    (ts : List Target) (g g1 : Gauges V)
    (hdone : parseBlocks F parts g ts = .done g1)
    (hs : ∀ t ∈ ts, t.metric ≠ .fioBenchmarkSuccess)
    (h : ∃ t ∈ ts, decodeField F parts t = none) :
    g1 .fioBenchmarkSuccess = some F.zero := by
  induction ts generalizing g with
  | nil => obtain ⟨t, ht, _⟩ := h; cases ht
  | cons t ts ih =>
    have hs' : ∀ t' ∈ ts, t'.metric ≠ .fioBenchmarkSuccess := fun t' ht' => hs t' (by simp [ht'])
    unfold parseBlocks parseBlock at hdone
    cases ha : parseArg parts t with
    | error p => rw [ha] at hdone; cases hdone
    | ok a =>
      rw [ha] at hdone
      simp only at hdone
      cases hp : F.ParseFloat a with
      | none =>
        rw [hp] at hdone
        simp only at hdone
        have := parseBlocks_success_sticky F parts ts _ hs' (Set_same g .fioBenchmarkSuccess F.zero)
        rw [hdone] at this
        exact this
      | some v =>
        rw [hp] at hdone
        simp only at hdone
        obtain ⟨t2, ht2, hf2⟩ := h
        rcases List.mem_cons.mp ht2 with e | hmem
        · subst e
          unfold decodeField at hf2
          rw [ha] at hf2
          simp only at hf2
          rw [hp] at hf2
          cases hf2
        · exact ih _ hdone hs' ⟨t2, hmem, hf2⟩

theorem targets_metric_ne_success :
    ∀ t ∈ targets, t.metric ≠ .fioBenchmarkSuccess := by decide

theorem targets_metric_nodup : (targets.map Target.metric).Nodup := by decide

theorem length_ge_of_take_eq_signature (s : GoString) (h : s.take 6 = signature) :
    ¬ s.length < 6 := by
  have := congrArg List.length h
  simp [signature] at this
  omega

theorem parseArg_ok_of_decodeField {V : Type} (F : Float64 V) (parts : List GoString)
    (t : Target) (v : V) (h : decodeField F parts t = some v) :
    ∃ a, parseArg parts t = .ok a := by
  unfold decodeField at h
  cases ha : parseArg parts t with
  | error p => rw [ha] at h; cases h
  | ok a => exact ⟨a, rfl⟩

theorem metric_is_target :
    ∀ m : Metric, m ≠ .fioBenchmarkSuccess → ∃ t ∈ targets, t.metric = m := by
  intro m
  cases m <;> decide

/-- A signature-bearing line is handed to the 37 blocks. -/
theorem processLine_of_signature {V : Type} (F : Float64 V) (g : Gauges V) (s : GoString)
    (hsig : s.take 6 = signature) :
    processLine F g s
      = parseBlocks F (strings.Split s ';') (g.Set .fioBenchmarkSuccess F.one) targets := by
  unfold processLine
  rw [if_neg (length_ge_of_take_eq_signature s hsig), if_neg (not_not.mpr hsig)]

/-- A signature-bearing line with a target whose argument expression panics stops
the program, whatever the parser and the gauges. -/
theorem processLine_crash {V : Type} (F : Float64 V) (g : Gauges V) (s : GoString)
    (t : Target) (p : GoPanic) (hsig : s.take 6 = signature) (ht : t ∈ targets)
    (h : parseArg (strings.Split s ';') t = .error p) :
    (processLine F g s).crashed = true := by
  rw [processLine_of_signature F g s hsig]
  exact parseBlocks_crash F _ targets _ t p ht h

/-- Failures of `ParseFloat` alone are isolated: when no argument expression
panics, the line is decoded to the end, every field that parses is published and
`fioBenchmarkSuccess` ends at 1 when all fields parse and at 0 otherwise. -/
theorem processLine_isolates_parse_errors {V : Type} (F : Float64 V) (g : Gauges V)
    (s : GoString) (hsig : s.take 6 = signature)
    (hargs : ∀ t ∈ targets, ∃ a, parseArg (strings.Split s ';') t = .ok a) :
    ∃ g1, processLine F g s = .done g1 ∧
      (∀ t ∈ targets, ∀ v, decodeField F (strings.Split s ';') t = some v →
        g1 t.metric = some v) ∧
      (∀ t ∈ targets, decodeField F (strings.Split s ';') t = none →
        g1 t.metric = g t.metric) ∧
      ((∀ t ∈ targets, decodeField F (strings.Split s ';') t ≠ none) →
        g1 .fioBenchmarkSuccess = some F.one) ∧
      ((∃ t ∈ targets, decodeField F (strings.Split s ';') t = none) →
        g1 .fioBenchmarkSuccess = some F.zero) := by
  obtain ⟨g1, hg1⟩ :=
    parseBlocks_done F (strings.Split s ';') targets (g.Set .fioBenchmarkSuccess F.one) hargs
  refine ⟨g1, ?_, ?_, ?_, ?_, ?_⟩
  · rw [processLine_of_signature F g s hsig, hg1]
  · intro t ht v hv
    exact parseBlocks_value F _ targets _ g1 t v hg1 targets_metric_nodup ht
      (targets_metric_ne_success t ht) hv
  · intro t ht hv
    have hm := targets_metric_ne_success t ht
    have := parseBlocks_frame F (strings.Split s ';') targets
      (g.Set .fioBenchmarkSuccess F.one) t.metric hm (fun t2 ht2 e2 => by
        have hinj := List.inj_on_of_nodup_map targets_metric_nodup ht2 ht e2
        rw [hinj]; exact hv)
    rw [hg1] at this
    simp only [Outcome.gauges] at this
    rw [this]
    exact Set_other g F.one hm
  · intro hall
    have := parseBlocks_success_kept F (strings.Split s ';') targets
      (g.Set .fioBenchmarkSuccess F.one) targets_metric_ne_success hall
    rw [hg1] at this
    simp only [Outcome.gauges] at this
    rw [this]
    exact Set_same g _ _
  · intro hex
    exact parseBlocks_success_zero F _ targets _ g1 hg1 targets_metric_ne_success hex

/-! ## Lemmas on `strings.Contains` and on the command line -/

theorem startsWith_iff (s p : GoString) :
    strings.startsWith s p = true ↔ ∃ r, s = p ++ r := by
  induction s generalizing p with
  | nil =>
    cases p with
    | nil => simp [strings.startsWith]
    | cons d ds => simp [strings.startsWith]
  | cons c cs ih =>
    cases p with
    | nil => simp [strings.startsWith]
    | cons d ds =>
      simp only [strings.startsWith, Bool.and_eq_true, beq_iff_eq, ih, List.cons_append,
        List.cons.injEq]
      constructor
      · rintro ⟨e, r, hr⟩
        exact ⟨r, e, hr⟩
      · rintro ⟨r, e, hr⟩
        exact ⟨e, r, hr⟩

/-- Go `strings.Contains(s, substr)` holds exactly when `substr` is a contiguous
part of `s`. -/
theorem Contains_iff (s sub : GoString) :
    strings.Contains s sub = true ↔ ∃ a b, s = a ++ sub ++ b := by
  induction s with
  | nil =>
    unfold strings.Contains
    rw [startsWith_iff]
    constructor
    · rintro ⟨r, hr⟩
      exact ⟨[], r, by simpa using hr⟩
    · rintro ⟨a, b, hab⟩
      have h1 : a ++ sub ++ b = [] := hab.symm
      simp only [List.append_eq_nil] at h1
      exact ⟨[], by simp [h1.1.2]⟩
  | cons c cs ih =>
    unfold strings.Contains
    rw [Bool.or_eq_true, startsWith_iff, ih]
    constructor
    · rintro (⟨r, hr⟩ | ⟨a, b, hab⟩)
      · exact ⟨[], r, by simpa using hr⟩
      · exact ⟨c :: a, b, by simp [hab]⟩
    · rintro ⟨a, b, hab⟩
      cases a with
      | nil => exact Or.inl ⟨b, by simpa using hab⟩
      | cons x a =>
        simp only [List.cons_append, List.cons.injEq] at hab
        exact Or.inr ⟨a, b, hab.2⟩

/-- Every command line built by `fmt.Sprintf` starts with the word `fio`. -/
theorem fioCmd_eq (fl : Flags) : ∃ r, fioCmd fl = "fio".toList ++ ' ' :: r := by
  unfold fioCmd
  split_ifs
  · exact ⟨_, by simp only [List.append_assoc]; rfl⟩
  · exact ⟨_, by simp only [List.append_assoc]; rfl⟩
  · exact ⟨_, by simp only [List.append_assoc]; rfl⟩

theorem percent_targets_use_Trim :
    ∀ t ∈ targets, t.index ∈ percentIndices → t.transform = .trimPct := by decide

/-- What the three guards on the custom profile test: the argument string passes
exactly when it is not empty and the letters `output` and `percentile` occur
nowhere in it, be it in a flag name or in a value. -/
theorem customChecks_passes_iff (flags : GoString) :
    customChecks custom flags = none ↔
      flags ≠ [] ∧ (¬ ∃ a b, flags = a ++ "output".toList ++ b) ∧
        (¬ ∃ a b, flags = a ++ "percentile".toList ++ b) := by
  rw [← Contains_iff, ← Contains_iff]
  unfold customChecks
  generalize strings.Contains flags "output".toList = o
  generalize strings.Contains flags "percentile".toList = q
  by_cases h1 : flags = []
  · simp [h1]
  · cases o <;> cases q <;> simp [h1]

/-! ## The claims -/

/-- C1: for every line that starts with the signature `5;fio-`, has at least 158
fields and whose 37 target fields are all numeric (a plain number, `key=number`
for the percentiles, a number with an optional `%` for the percentages), decoding
runs to its end, sets every one of the 37 gauges to the number read in its own
field, whatever the gauges held before, and leaves `fioBenchmarkSuccess` at 1. -/
theorem C1_wellformed_line_sets_every_gauge {V : Type} (F : Float64 V) (g : Gauges V)
    (s : GoString)
    (hsig : s.take 6 = signature)
    (_hlen : 158 ≤ (strings.Split s ';').length)
    (hnum : ∀ t ∈ targets, (Spec.fieldNumber F (strings.Split s ';') t).isSome = true) :
    ∃ g1, processLine F g s = .done g1 ∧
      g1 .fioBenchmarkSuccess = some F.one ∧
      ∀ m, m ≠ .fioBenchmarkSuccess →
        ∃ t ∈ targets, t.metric = m ∧
          ∃ f v, (strings.Split s ';')[t.index]? = some f ∧
            Spec.numberOf F t.transform f = some v ∧ g1 m = some v := by
  have hdec : ∀ t ∈ targets, ∃ v, Spec.fieldNumber F (strings.Split s ';') t = some v ∧
      decodeField F (strings.Split s ';') t = some v := by
    intro t ht
    obtain ⟨v, hv⟩ := Option.isSome_iff_exists.mp (hnum t ht)
    exact ⟨v, hv, decodeField_of_fieldNumber F _ t v hv⟩
  have hargs : ∀ t ∈ targets, ∃ a, parseArg (strings.Split s ';') t = .ok a := by
    intro t ht
    obtain ⟨v, _, hv⟩ := hdec t ht
    exact parseArg_ok_of_decodeField F _ t v hv
  obtain ⟨g1, hdone, hval, _, hone, _⟩ := processLine_isolates_parse_errors F g s hsig hargs
  refine ⟨g1, hdone, ?_, ?_⟩
  · apply hone
    intro t ht hnone
    obtain ⟨v, _, hv⟩ := hdec t ht
    rw [hv] at hnone
    cases hnone
  · intro m hm
    obtain ⟨t, ht, htm⟩ := metric_is_target m hm
    obtain ⟨v, hspec, hv⟩ := hdec t ht
    refine ⟨t, ht, htm, ?_⟩
    unfold Spec.fieldNumber at hspec
    cases hf : (strings.Split s ';')[t.index]? with
    | none => rw [hf] at hspec; cases hspec
    | some f =>
      rw [hf] at hspec
      refine ⟨f, v, rfl, hspec, ?_⟩
      rw [← htm]
      exact hval t ht v hv

theorem C1_wellformed_line_sets_every_gauge_witness :
    ∃ g1, processLine decimalF noGauges goodLine = .done g1 ∧
      g1 .fioBenchmarkSuccess = some decimalF.one ∧
      ∀ m, m ≠ .fioBenchmarkSuccess →
        ∃ t ∈ targets, t.metric = m ∧
          ∃ f v, (strings.Split goodLine ';')[t.index]? = some f ∧
            Spec.numberOf decimalF t.transform f = some v ∧ g1 m = some v :=
  C1_wellformed_line_sets_every_gauge decimalF noGauges goodLine (by decide) (by decide)
    (by decide)

/-- C2 (code bug): the line `lineBadPercentile` bears the signature and has 160
fields, of which field 27 alone is not numeric (`abc`).  The claim has every other
numeric field published and `fioBenchmarkSuccess` at 0; the code panics on
`strings.Split(parts[27], "=")[1]`, for every parser and every prior state, so the
numeric field 28 is never published and `fioBenchmarkSuccess` is left at 1. -/
theorem C2_nonnumeric_percentile_stops_decoding :
    (lineBadPercentile.take 6 = signature ∧
      (strings.Split lineBadPercentile ';').length = 160) ∧
    (∀ (V : Type) (F : Float64 V) (g : Gauges V),
      (processLine F g lineBadPercentile).crashed = true) ∧
    Spec.fieldNumber decimalF (strings.Split lineBadPercentile ';')
      ⟨.fioReadLat95, 28, .splitEq⟩ = some ⟨2024, 0⟩ ∧
    (processLine decimalF noGauges lineBadPercentile).gauges .fioReadLat95 = none ∧
    (processLine decimalF noGauges lineBadPercentile).gauges .fioBenchmarkSuccess
      = some ⟨1, 0⟩ := by
  refine ⟨by decide, ?_, by decide, by decide, by decide⟩
  intro V F g
  exact processLine_crash F g lineBadPercentile ⟨.fioReadLat90, 27, .splitEq⟩
    .indexOutOfRange (by decide) (by decide) (by rfl)

/-- C3 (code bug): the line `lineTruncated` bears the signature and has seven
fields.  The claim has decoding go on without a crash and `fioBenchmarkSuccess` end
at 0; the code publishes field 6 and then panics on `parts[7]`, for every parser
and every prior state, with `fioBenchmarkSuccess` left at 1. -/
theorem C3_truncated_line_panics :
    (lineTruncated.take 6 = signature ∧ (strings.Split lineTruncated ';').length = 7) ∧
    (∀ (V : Type) (F : Float64 V) (g : Gauges V),
      (processLine F g lineTruncated).crashed = true) ∧
    (processLine decimalF noGauges lineTruncated).gauges .fioReadBW = some ⟨3522, 0⟩ ∧
    (processLine decimalF noGauges lineTruncated).gauges .fioBenchmarkSuccess
      = some ⟨1, 0⟩ := by
  refine ⟨by decide, ?_, by decide, by decide⟩
  intro V F g
  exact processLine_crash F g lineTruncated ⟨.fioReadIOPS, 7, .plain⟩
    .indexOutOfRange (by decide) (by decide) (by rfl)

/-- The second half of C4 holds: a percentile field `key=value` with one `=` hands
`value` to `ParseFloat`, so `p90=1234.5` decodes to what `ParseFloat` makes of
`1234.5`. -/
theorem percentile_key_value (parts : List GoString) (t : Target) (k n : GoString)
    (htr : t.transform = .splitEq) (hf : parts[t.index]? = some (k ++ '=' :: n))
    (hk : '=' ∉ k) (hn : '=' ∉ n) : parseArg parts t = .ok n := by
  unfold parseArg index
  rw [htr]
  simp only [hf]
  rw [Split_append_sep _ _ _ hk, Split_of_not_mem _ _ hn]
  rfl

/-- A percentile field without `=` makes the argument expression panic. -/
theorem percentile_without_eq_panics (parts : List GoString) (t : Target) (f : GoString)
    (htr : t.transform = .splitEq) (hf : parts[t.index]? = some f) (hno : '=' ∉ f) :
    parseArg parts t = .error .indexOutOfRange := by
  unfold parseArg index
  rw [htr]
  simp only [hf]
  rw [Split_of_not_mem _ _ hno]
  rfl

/-- C4 (code bug): the line `lineMissingEq` bears the signature and has 160 fields,
of which field 74 is the number `1713` without `key=`.  The claim makes this a
field-decode error after which the remaining fields are decoded; the code panics on
`strings.Split(parts[74], "=")[1]`, for every parser and every prior state, so the
numeric field 84 is never published and `fioBenchmarkSuccess` is left at 1.  A
field `p90=1234.5` does hand `1234.5` to the parser. -/
theorem C4_percentile_without_eq_panics :
    (lineMissingEq.take 6 = signature ∧ (strings.Split lineMissingEq ';').length = 160) ∧
    (∀ (V : Type) (F : Float64 V) (g : Gauges V),
      (processLine F g lineMissingEq).crashed = true) ∧
    Spec.fieldNumber decimalF (strings.Split lineMissingEq ';')
      ⟨.fioWriteLatMin, 84, .plain⟩ = some ⟨455, 0⟩ ∧
    (processLine decimalF noGauges lineMissingEq).gauges .fioWriteLatMin = none ∧
    (processLine decimalF noGauges lineMissingEq).gauges .fioBenchmarkSuccess
      = some ⟨1, 0⟩ ∧
    decodeField decimalF ["p90=1234.5".toList] ⟨.fioReadLat90, 0, .splitEq⟩
      = some ⟨12345, 1⟩ := by
  refine ⟨by decide, ?_, by decide, by decide, by decide, by decide⟩
  intro V F g
  exact processLine_crash F g lineMissingEq ⟨.fioWriteLat90, 74, .splitEq⟩
    .indexOutOfRange (by decide) (by decide) (by rfl)

/-- C5 (code bug): on the empty line, and on the five-byte line `5;fio`, the claim
has the line discarded and the loop go on; the code panics in `s[0:6]`, for every
parser, every prior state and whatever lines follow, so the loop never reaches the
next line. -/
theorem C5_short_line_panics :
    ∀ (V : Type) (F : Float64 V) (g : Gauges V) (rest : List GoString),
      scanLoop F g ([] :: rest) = .panicked .sliceBoundsOutOfRange g ∧
      scanLoop F g ("5;fio".toList :: rest) = .panicked .sliceBoundsOutOfRange g := by
  intro V F g rest
  exact ⟨rfl, rfl⟩

/-- C6: a line of at least six bytes whose first six bytes are not `5;fio-` is
fully discarded: whatever the parser, no gauge changes, `fioBenchmarkSuccess`
included, and the loop goes on with the next line; a line whose first six bytes are
`5;fio-` is decoded: it is split on `;`, `fioBenchmarkSuccess` is set to 1 and the
37 blocks run on the fields. -/
theorem C6_signature_gate {V : Type} (F : Float64 V) (g : Gauges V) (s : GoString) :
    (6 ≤ s.length → s.take 6 ≠ signature →
      processLine F g s = .done g ∧
        ∀ rest, scanLoop F g (s :: rest) = scanLoop F g rest) ∧
    (s.take 6 = signature →
      processLine F g s
        = parseBlocks F (strings.Split s ';') (g.Set .fioBenchmarkSuccess F.one) targets) := by
  constructor
  · intro hlen hne
    have h : processLine F g s = .done g := by
      unfold processLine
      rw [if_neg (by omega), if_pos hne]
    refine ⟨h, fun rest => ?_⟩
    show (match processLine F g s with
      | .done g1 => scanLoop F g1 rest
      | .panicked p g1 => .panicked p g1) = scanLoop F g rest
    rw [h]
  · exact processLine_of_signature F g s

theorem C6_signature_gate_witness :
    (processLine decimalF noGauges lineBanner = .done noGauges ∧
      ∀ rest, scanLoop decimalF noGauges (lineBanner :: rest)
        = scanLoop decimalF noGauges rest) ∧
    processLine decimalF noGauges goodLine
      = parseBlocks decimalF (strings.Split goodLine ';')
          (noGauges.Set .fioBenchmarkSuccess decimalF.one) targets :=
  ⟨(C6_signature_gate decimalF noGauges lineBanner).1 (by decide) (by decide),
    (C6_signature_gate decimalF noGauges goodLine).2 (by decide)⟩

/-- C7 as stated fails: field 146 of `lineLeadingPercent` is `%1.25`; removing a
final `%` alone would leave it unchanged and make it a decode failure, but the code
hands `1.25` to the parser, publishes it and leaves `fioBenchmarkSuccess` at 1. -/
theorem C7_leading_percent_is_removed :
    (strings.Split lineLeadingPercent ';')[146]? = some "%1.25".toList ∧
    Spec.stripTrailingPercent "%1.25".toList = "%1.25".toList ∧
    parseArg (strings.Split lineLeadingPercent ';') ⟨.fioCpuUser, 146, .trimPct⟩
      = .ok "1.25".toList ∧
    (processLine decimalF noGauges lineLeadingPercent).crashed = false ∧
    (processLine decimalF noGauges lineLeadingPercent).gauges .fioCpuUser
      = some ⟨125, 2⟩ ∧
    (processLine decimalF noGauges lineLeadingPercent).gauges .fioBenchmarkSuccess
      = some ⟨1, 0⟩ := by
  refine ⟨by decide, by decide, by rfl, by decide, by decide, by decide⟩

/-- C7, amended: for every percentage-valued field (indices 146, 147, 151-157) that
is present, the string handed to the float parser is the field with all its leading
and all its trailing `%` removed and nothing else changed: the field is
`a ++ r ++ b` with `a` and `b` made of `%` only and `r`, the string parsed, neither
starting nor ending with `%`; the block publishes what `ParseFloat` makes of `r`. -/
theorem C7_percent_fields_are_trimmed {V : Type} (F : Float64 V) (parts : List GoString)
    (t : Target) (f : GoString) (ht : t ∈ targets) (hidx : t.index ∈ percentIndices)
    (hf : parts[t.index]? = some f) :
    ∃ a r b, f = a ++ r ++ b ∧ (∀ x ∈ a, x = '%') ∧ (∀ x ∈ b, x = '%') ∧
      r.head? ≠ some '%' ∧ r.getLast? ≠ some '%' ∧
      parseArg parts t = .ok r ∧ decodeField F parts t = F.ParseFloat r := by
  have htr := percent_targets_use_Trim t ht hidx
  obtain ⟨a, b, hab, ha, hb, hh, hl⟩ := Trim_spec f '%'
  have harg : parseArg parts t = .ok (strings.Trim f '%') := by
    unfold parseArg index
    rw [htr]
    simp only [hf]
  refine ⟨a, strings.Trim f '%', b, hab, ha, hb, hh, hl, harg, ?_⟩
  unfold decodeField
  rw [harg]

theorem C7_percent_fields_are_trimmed_witness :
    ∃ a r b, "%%4.5%".toList = a ++ r ++ b ∧ (∀ x ∈ a, x = '%') ∧ (∀ x ∈ b, x = '%') ∧
      r.head? ≠ some '%' ∧ r.getLast? ≠ some '%' ∧
      parseArg (goodFields.set 147 "%%4.5%".toList) ⟨.fioCpuSys, 147, .trimPct⟩ = .ok r ∧
      decodeField decimalF (goodFields.set 147 "%%4.5%".toList) ⟨.fioCpuSys, 147, .trimPct⟩
        = decimalF.ParseFloat r :=
  C7_percent_fields_are_trimmed decimalF (goodFields.set 147 "%%4.5%".toList)
    ⟨.fioCpuSys, 147, .trimPct⟩ "%%4.5%".toList (by decide) (by decide) (by decide)

/-- C8: for every decoded line and every target field that fails to decode (its
block panics or `ParseFloat` returns an error), the gauge of that field holds, when
the code stops, exactly the value it had before the line was processed; and the
block of the failing field, run from any state, changes no gauge other than
`fioBenchmarkSuccess`. -/
theorem C8_failed_field_keeps_its_gauge {V : Type} (F : Float64 V) (g : Gauges V)
    (s : GoString) (t : Target) (hsig : s.take 6 = signature) (ht : t ∈ targets)
    (hfail : decodeField F (strings.Split s ';') t = none) :
    (processLine F g s).gauges t.metric = g t.metric ∧
    ∀ (g0 : Gauges V) (m : Metric), m ≠ .fioBenchmarkSuccess →
      (parseBlock F (strings.Split s ';') g0 t).gauges m = g0 m := by
  have hm := targets_metric_ne_success t ht
  constructor
  · rw [processLine_of_signature F g s hsig,
      parseBlocks_frame F (strings.Split s ';') targets _ t.metric hm (fun t2 ht2 e2 => by
        have hinj := List.inj_on_of_nodup_map targets_metric_nodup ht2 ht e2
        rw [hinj]; exact hfail)]
    exact Set_other g F.one hm
  · intro g0 m hm0
    exact parseBlock_frame F _ g0 t m hm0 (fun _ => hfail)

theorem C8_failed_field_keeps_its_gauge_witness :
    (processLine decimalF (processLine decimalF noGauges goodLine).gauges
        lineBadIOPS).gauges .fioReadIOPS
      = (processLine decimalF noGauges goodLine).gauges .fioReadIOPS ∧
    ∀ (g0 : Gauges Decimal) (m : Metric), m ≠ .fioBenchmarkSuccess →
      (parseBlock decimalF (strings.Split lineBadIOPS ';') g0
        ⟨.fioReadIOPS, 7, .plain⟩).gauges m = g0 m :=
  C8_failed_field_keeps_its_gauge decimalF (processLine decimalF noGauges goodLine).gauges
    lineBadIOPS ⟨.fioReadIOPS, 7, .plain⟩ (by decide) (by decide) (by decide)

/-- C9 (code bug): the custom argument strings `--directory=/mnt/output` and
`--name=percentile-test --rw=read` are not empty and request neither an output flag
nor a percentile-related flag, so the claim, like the comments and the fatal
messages of the code, has them accepted; the code ends in the second `log.Fatal`
on the first string and in the third on the second, because it looks for the
letters `output` and `percentile` anywhere in the string. -/
theorem C9_output_inside_value_is_rejected :
    ("--directory=/mnt/output".toList ≠ [] ∧
      Spec.usesOutputFlag "--directory=/mnt/output".toList = false ∧
      Spec.usesPercentileFlag "--directory=/mnt/output".toList = false ∧
      customChecks custom "--directory=/mnt/output".toList = some msgOutput) ∧
    ("--name=percentile-test --rw=read".toList ≠ [] ∧
      Spec.usesOutputFlag "--name=percentile-test --rw=read".toList = false ∧
      Spec.usesPercentileFlag "--name=percentile-test --rw=read".toList = false ∧
      customChecks custom "--name=percentile-test --rw=read".toList = some msgPercentile) := by
  refine ⟨⟨by decide, by decide, by decide, by decide⟩,
    ⟨by decide, by decide, by decide, by decide⟩⟩

/-- C10: when the profile is `custom` and the custom argument string is empty,
`main` ends in the first `log.Fatal`, exit status 1, and neither the statement that
starts the scheduler goroutine nor any spawn is reached; for every other profile
the three checks on the custom arguments pass, whatever the custom argument string
holds, and `main` goes on to start the scheduler, which spawns `fio`. -/
theorem C10_custom_without_flags_is_fatal (fl : Flags) :
    (fl.benchmark = custom → fl.customFioBenchmarkFlags = [] →
      mainStart fl = [.fatal 1 msgCustomMissing]) ∧
    (fl.benchmark ≠ custom →
      customChecks fl.benchmark fl.customFioBenchmarkFlags = none ∧
        ∃ args, mainStart fl = [.goScheduler, .spawn "fio".toList args]) := by
  constructor
  · intro hb hc
    unfold mainStart customChecks
    simp [hb, hc]
  · intro hb
    have hchk : customChecks fl.benchmark fl.customFioBenchmarkFlags = none := by
      unfold customChecks
      simp [hb]
    refine ⟨hchk, ?_⟩
    obtain ⟨r, hr⟩ := fioCmd_eq fl
    unfold mainStart
    rw [hchk, hr, Split_append_sep _ _ _ (by decide)]
    exact ⟨_, rfl⟩

theorem C10_custom_without_flags_is_fatal_witness :
    mainStart flagsCustomEmpty = [.fatal 1 msgCustomMissing] ∧
    (customChecks flagsLatency.benchmark flagsLatency.customFioBenchmarkFlags = none ∧
      ∃ args, mainStart flagsLatency = [.goScheduler, .spawn "fio".toList args]) :=
  ⟨(C10_custom_without_flags_is_fatal flagsCustomEmpty).1 (by decide) (by decide),
    (C10_custom_without_flags_is_fatal flagsLatency).2 (by decide)⟩

/-! ## The scheduler: the invariant holds in every reachable state -/

theorem Inv_init (fl : SchedFlags) : Inv fl Sched.init := by
  constructor <;> simp [Sched.init]
  intros
  omega

/-- While the process lives, time may pass. -/
theorem step_tick (fl : SchedFlags) (s : Sched) (dt : Nat) (hpc : ∀ c, s.pc ≠ .exited c) :
    step fl s (.tick dt) = some { s with now := s.now + dt } := by
  unfold step
  cases hp : s.pc <;> simp_all

/-- While the process lives, a timer whose deadline has come may fire. -/
theorem step_fire (fl : SchedFlags) (s : Sched) (i : Nat) (hpc : ∀ c, s.pc ≠ .exited c) :
    step fl s (.fire i) =
      match s.timers[i]? with
      | none => none
      | some (k, d) =>
        if d ≤ s.now then
          some { s with
            timers := s.timers.eraseIdx i
            fired := k :: s.fired
            token := true
            blocked := if s.token then s.blocked + 1 else s.blocked }
        else none := by
  unfold step
  cases hp : s.pc <;> simp_all

theorem step_exited (fl : SchedFlags) (s : Sched) (a : Action) (c : Nat)
    (hpc : s.pc = .exited c) : step fl s a = none := by
  unfold step
  rw [hpc]

theorem Inv_tick (fl : SchedFlags) (s : Sched) (dt : Nat) (h : Inv fl s)
    (hpc : ∀ c, s.pc ≠ .exited c) : Inv fl { s with now := s.now + dt } := by
  obtain ⟨hB, hU, hT, hF1, hF2, hA, hFL, hSL, hSI, hIL, hR, hAr, hL, hIF, hSl, hE, hO⟩ := h
  constructor <;> first | assumption | (intro h0; exact absurd h0 (hpc 0))

theorem Inv_fire (fl : SchedFlags) (s s1 : Sched) (i : Nat) (h : Inv fl s)
    (hs : step fl s (.fire i) = some s1) : Inv fl s1 := by
  have hpc : ∀ c, s.pc ≠ .exited c := by
    intro c hc
    rw [step_exited fl s _ c hc] at hs
    cases hs
  rw [step_fire fl s i hpc] at hs
  obtain ⟨now, token, blocked, timers, pc, iter, armed, started, finished, lastFinish, fired⟩ := s
  obtain ⟨hB, hU, hT, hF1, hF2, hA, hFL, hSL, hSI, hIL, hR, hAr, hL, hIF, hSl, hE, hO⟩ := h
  simp only at hB hU hT hF1 hF2 hA hFL hSL hSI hIL hR hAr hL hIF hSl hE hO hs hpc
  have hlen : timers.length ≤ 1 := by
    split_ifs at hU <;> omega
  rcases timers with _ | ⟨⟨k, d⟩, _ | ⟨q, r⟩⟩
  · simp at hs
  · have htok : token = false := by
      cases token
      · rfl
      · simp only [List.length_singleton, if_true] at hU
        omega
    have hparm : pc ≠ .arm := by
      intro e
      simp only [e, List.length_singleton, if_true] at hU
      omega
    have hk : k = iter := hT (k, d) (by simp)
    subst htok
    cases i with
    | succ j => simp at hs
    | zero =>
      simp only [List.getElem?_cons_zero] at hs
      by_cases hd : d ≤ now
      · rw [if_pos hd] at hs
        cases hs
        constructor
        · simpa using hB
        · simp [hparm]
        · intro p hp; simp at hp
        · intro k' h1 h2
          exact List.mem_cons_of_mem _ (hF1 k' h1 h2)
        · intro _ k' h1 h2
          rcases Nat.lt_or_ge k' iter with hlt | hge
          · exact List.mem_cons_of_mem _ (hF1 k' h1 hlt)
          · have hkk : k' = k := by
              have h3 : k' ≤ iter := h2
              omega
            simp [hkk]
        · exact hA
        · exact hFL
        · exact hSL
        · exact hSI
        · exact hIL
        · exact hR
        · exact hAr
        · exact hL
        · exact hIF
        · exact hSl
        · exact hE
        · exact hO
      · rw [if_neg hd] at hs
        cases hs
  · simp at hlen

theorem Inv_step (fl : SchedFlags) (s s1 : Sched) (a : Action) (h : Inv fl s)
    (hs : step fl s a = some s1) : Inv fl s1 := by
  have hpc : ∀ c, s.pc ≠ .exited c := by
    intro c hc
    rw [step_exited fl s _ c hc] at hs
    cases hs
  cases a with
  | tick dt =>
    rw [step_tick fl s dt hpc] at hs
    cases hs
    exact Inv_tick fl s dt h hpc
  | fire i => exact Inv_fire fl s s1 i h hs
  | fatal =>
    obtain ⟨now, token, blocked, timers, pc, iter, armed, started, finished, lastFinish,
      fired⟩ := s
    obtain ⟨hB, hU, hT, hF1, hF2, hA, hFL, hSL, hSI, hIL, hR, hAr, hL, hIF, hSl, hE, hO⟩ := h
    simp only at hB hU hT hF1 hF2 hA hFL hSL hSI hIL hR hAr hL hIF hSl hE hO hs hpc
    cases pc with
    | launch =>
      simp only [step, Option.some.injEq] at hs
      subst hs
      exact
        { noBlocked := hB
          units := by
            simp only [reduceCtorEq, if_false] at hU ⊢
            exact hU
          timerIter := hT
          firedBefore := hF1
          firedToken := hF2
          armedIter := by
            simp only [reduceCtorEq, if_false] at hA ⊢
            exact hA
          finishedLe := hFL
          startedLe := hSL
          startedIter := hSI
          iterLe := hIL
          atRecv := fun h0 => by cases h0
          atArm := fun h0 => by cases h0
          atLaunch := fun h0 => by cases h0
          atInFlight := fun h0 => by cases h0
          atSleep := fun w h0 => by cases h0
          atExit0 := fun h0 => by simp at h0
          once := fun hro => ⟨(hO hro).1, fun h0 => by cases h0⟩ }
    | inFlight =>
      simp only [step, Option.some.injEq] at hs
      subst hs
      have h1 := hIF rfl
      exact
        { noBlocked := hB
          units := by
            simp only [reduceCtorEq, if_false] at hU ⊢
            exact hU
          timerIter := hT
          firedBefore := hF1
          firedToken := hF2
          armedIter := by
            simp only [reduceCtorEq, if_false] at hA ⊢
            exact hA
          finishedLe := by show finished + 1 ≤ started; omega
          startedLe := by show started ≤ finished + 1 + 1; omega
          startedIter := hSI
          iterLe := hIL
          atRecv := fun h0 => by cases h0
          atArm := fun h0 => by cases h0
          atLaunch := fun h0 => by cases h0
          atInFlight := fun h0 => by cases h0
          atSleep := fun w h0 => by cases h0
          atExit0 := fun h0 => by simp at h0
          once := fun hro => ⟨(hO hro).1, fun h0 => by cases h0⟩ }
    | recv => simp [step] at hs
    | arm => simp [step] at hs
    | sleep w => simp [step] at hs
    | exited c => simp [step] at hs
  | panic =>
    obtain ⟨now, token, blocked, timers, pc, iter, armed, started, finished, lastFinish,
      fired⟩ := s
    obtain ⟨hB, hU, hT, hF1, hF2, hA, hFL, hSL, hSI, hIL, hR, hAr, hL, hIF, hSl, hE, hO⟩ := h
    simp only at hB hU hT hF1 hF2 hA hFL hSL hSI hIL hR hAr hL hIF hSl hE hO hs hpc
    cases pc with
    | inFlight =>
      simp only [step, Option.some.injEq] at hs
      subst hs
      exact
        { noBlocked := hB
          units := by
            simp only [reduceCtorEq, if_false] at hU ⊢
            exact hU
          timerIter := hT
          firedBefore := hF1
          firedToken := hF2
          armedIter := by
            simp only [reduceCtorEq, if_false] at hA ⊢
            exact hA
          finishedLe := hFL
          startedLe := hSL
          startedIter := hSI
          iterLe := hIL
          atRecv := fun h0 => by cases h0
          atArm := fun h0 => by cases h0
          atLaunch := fun h0 => by cases h0
          atInFlight := fun h0 => by cases h0
          atSleep := fun w h0 => by cases h0
          atExit0 := fun h0 => by simp at h0
          once := fun hro => ⟨(hO hro).1, fun h0 => by cases h0⟩ }
    | launch => simp [step] at hs
    | recv => simp [step] at hs
    | arm => simp [step] at hs
    | sleep w => simp [step] at hs
    | exited c => simp [step] at hs
  | next =>
    obtain ⟨now, token, blocked, timers, pc, iter, armed, started, finished, lastFinish,
      fired⟩ := s
    obtain ⟨hB, hU, hT, hF1, hF2, hA, hFL, hSL, hSI, hIL, hR, hAr, hL, hIF, hSl, hE, hO⟩ := h
    simp only at hB hU hT hF1 hF2 hA hFL hSL hSI hIL hR hAr hL hIF hSl hE hO hs hpc
    cases pc with
    | exited c => simp [step] at hs
    | recv =>
      cases token with
      | false => simp [step] at hs
      | true =>
        subst hB
        simp only [step, if_true, Option.some.injEq] at hs
        subst hs
        have h1 := hR rfl
        have hnil : timers = [] := by
          simp only [reduceCtorEq, if_false, if_true] at hU
          exact List.length_eq_zero.mp (by omega)
        subst hnil
        exact
          { noBlocked := rfl
            units := by simp
            timerIter := fun p hp => by cases hp
            firedBefore := fun k hk1 hk2 => hF2 rfl k hk1 (Nat.lt_succ_iff.mp hk2)
            firedToken := fun h0 => by simp at h0
            armedIter := by
              simp only [reduceCtorEq, if_false, if_true] at hA ⊢
              omega
            finishedLe := hFL
            startedLe := hSL
            startedIter := Nat.le_succ_of_le hSI
            iterLe := by show iter + 1 ≤ started + 1; omega
            atRecv := fun h0 => by cases h0
            atArm := fun _ => ⟨by rw [h1.1], by rw [h1.2, h1.1]⟩
            atLaunch := fun h0 => by cases h0
            atInFlight := fun h0 => by cases h0
            atSleep := fun w h0 => by cases h0
            atExit0 := fun h0 => by cases h0
            once := fun hro =>
              ⟨by have := (hO hro).2 rfl; show iter + 1 ≤ 1; omega, fun h0 => by cases h0⟩ }
    | arm =>
      simp only [step, Option.some.injEq] at hs
      subst hs
      have h1 := hAr rfl
      have htok : token = false := by
        cases token
        · rfl
        · simp only [if_true] at hU
          omega
      have hnil : timers = [] := by
        simp only [if_true] at hU
        exact List.length_eq_zero.mp (by omega)
      subst htok hnil
      exact
        { noBlocked := hB
          units := by simp
          timerIter := fun p hp => by
            simp only [List.nil_append, List.mem_singleton] at hp
            rw [hp]
          firedBefore := hF1
          firedToken := fun h0 => by cases h0
          armedIter := by
            simp only [reduceCtorEq, if_false, if_true] at hA ⊢
            omega
          finishedLe := hFL
          startedLe := hSL
          startedIter := hSI
          iterLe := hIL
          atRecv := fun h0 => by cases h0
          atArm := fun h0 => by cases h0
          atLaunch := fun _ => h1
          atInFlight := fun h0 => by cases h0
          atSleep := fun w h0 => by cases h0
          atExit0 := fun h0 => by cases h0
          once := fun hro => ⟨(hO hro).1, fun h0 => by cases h0⟩ }
    | launch =>
      simp only [step, Option.some.injEq] at hs
      subst hs
      have h1 := hL rfl
      exact
        { noBlocked := hB
          units := by
            simp only [reduceCtorEq, if_false] at hU ⊢
            exact hU
          timerIter := hT
          firedBefore := hF1
          firedToken := hF2
          armedIter := by
            simp only [reduceCtorEq, if_false] at hA ⊢
            exact hA
          finishedLe := by show finished ≤ started + 1; omega
          startedLe := by show started + 1 ≤ finished + 1; omega
          startedIter := by show started + 1 ≤ iter; omega
          iterLe := by show iter ≤ started + 1 + 1; omega
          atRecv := fun h0 => by cases h0
          atArm := fun h0 => by cases h0
          atLaunch := fun h0 => by cases h0
          atInFlight := fun _ => ⟨h1.1, by show finished + 1 = started + 1; omega⟩
          atSleep := fun w h0 => by cases h0
          atExit0 := fun h0 => by cases h0
          once := fun hro => ⟨(hO hro).1, fun h0 => by cases h0⟩ }
    | inFlight =>
      have h1 := hIF rfl
      cases hro : fl.runOnce with
      | true =>
        simp only [step, hro, if_true, Option.some.injEq] at hs
        subst hs
        have h2 := (hO hro).1
        exact
          { noBlocked := hB
            units := by
              simp only [reduceCtorEq, if_false] at hU ⊢
              exact hU
            timerIter := hT
            firedBefore := hF1
            firedToken := hF2
            armedIter := by
              simp only [reduceCtorEq, if_false] at hA ⊢
              exact hA
            finishedLe := by show finished + 1 ≤ started; omega
            startedLe := by show started ≤ finished + 1 + 1; omega
            startedIter := hSI
            iterLe := hIL
            atRecv := fun h0 => by cases h0
            atArm := fun h0 => by cases h0
            atLaunch := fun h0 => by cases h0
            atInFlight := fun h0 => by cases h0
            atSleep := fun w h0 => by
              simp only [PC.sleep.injEq] at h0
              exact ⟨hro, by show started = 1; omega, by show finished + 1 = 1; omega,
                h0.symm⟩
            atExit0 := fun h0 => by cases h0
            once := fun _ => ⟨h2, fun h0 => by cases h0⟩ }
      | false =>
        simp only [step, hro, Bool.false_eq_true, if_false, Option.some.injEq] at hs
        subst hs
        exact
          { noBlocked := hB
            units := by
              simp only [reduceCtorEq, if_false] at hU ⊢
              exact hU
            timerIter := hT
            firedBefore := hF1
            firedToken := hF2
            armedIter := by
              simp only [reduceCtorEq, if_false] at hA ⊢
              exact hA
            finishedLe := by show finished + 1 ≤ started; omega
            startedLe := by show started ≤ finished + 1 + 1; omega
            startedIter := hSI
            iterLe := hIL
            atRecv := fun _ => ⟨h1.1, by show finished + 1 = iter; omega⟩
            atArm := fun h0 => by cases h0
            atLaunch := fun h0 => by cases h0
            atInFlight := fun h0 => by cases h0
            atSleep := fun w h0 => by cases h0
            atExit0 := fun h0 => by cases h0
            once := fun h0 => by rw [hro] at h0; cases h0 }
    | sleep w =>
      have h1 := hSl w rfl
      by_cases hw : w ≤ now
      · simp only [step, if_pos hw, Option.some.injEq] at hs
        subst hs
        exact
          { noBlocked := hB
            units := by
              simp only [reduceCtorEq, if_false] at hU ⊢
              exact hU
            timerIter := hT
            firedBefore := hF1
            firedToken := hF2
            armedIter := by
              simp only [reduceCtorEq, if_false] at hA ⊢
              exact hA
            finishedLe := hFL
            startedLe := hSL
            startedIter := hSI
            iterLe := hIL
            atRecv := fun h0 => by cases h0
            atArm := fun h0 => by cases h0
            atLaunch := fun h0 => by cases h0
            atInFlight := fun h0 => by cases h0
            atSleep := fun w h0 => by cases h0
            atExit0 := fun _ => ⟨h1.1, h1.2.1, h1.2.2.1, by rw [← h1.2.2.2]; exact hw⟩
            once := fun hro => ⟨(hO hro).1, fun h0 => by cases h0⟩ }
      · simp [step, hw] at hs

/-- The invariant holds in every state an execution reaches. -/
theorem Inv_exec (fl : SchedFlags) (as : List Action) (s0 s : Sched) (h0 : Inv fl s0)
    (h : exec fl s0 as = some s) : Inv fl s := by
  induction as generalizing s0 with
  | nil =>
    simp only [exec, Option.some.injEq] at h
    rw [← h]
    exact h0
  | cons a as ih =>
    unfold exec at h
    cases hst : step fl s0 a with
    | none => rw [hst] at h; cases h
    | some s1 =>
      rw [hst] at h
      exact ih s1 (Inv_step fl s0 s1 a h0 hst) h

/-- The one transition that starts a run is `fioCommand.Start()`. -/
theorem started_of_step (fl : SchedFlags) (s s1 : Sched) (a : Action)
    (hs : step fl s a = some s1) :
    s1.started = s.started ∨ (s.pc = .launch ∧ a = .next ∧ s1.started = s.started + 1) := by
  have hpc : ∀ c, s.pc ≠ .exited c := by
    intro c hc
    rw [step_exited fl s _ c hc] at hs
    cases hs
  cases a with
  | tick dt =>
    rw [step_tick fl s dt hpc] at hs
    cases hs
    exact Or.inl rfl
  | fire i =>
    rw [step_fire fl s i hpc] at hs
    cases ht : s.timers[i]? with
    | none => rw [ht] at hs; cases hs
    | some p =>
      obtain ⟨k, d⟩ := p
      rw [ht] at hs
      simp only at hs
      by_cases hd : d ≤ s.now
      · rw [if_pos hd] at hs
        cases hs
        exact Or.inl rfl
      · rw [if_neg hd] at hs
        cases hs
  | next =>
    obtain ⟨now, token, blocked, timers, pc, iter, armed, started, finished, lastFinish,
      fired⟩ := s
    cases pc with
    | exited c => simp [step] at hs
    | recv =>
      cases token with
      | false => simp [step] at hs
      | true =>
        simp only [step, if_true, Option.some.injEq] at hs
        subst hs
        exact Or.inl rfl
    | arm =>
      simp only [step, Option.some.injEq] at hs
      subst hs
      exact Or.inl rfl
    | launch =>
      simp only [step, Option.some.injEq] at hs
      subst hs
      exact Or.inr ⟨rfl, rfl, rfl⟩
    | inFlight =>
      simp only [step, Option.some.injEq] at hs
      subst hs
      exact Or.inl rfl
    | sleep w =>
      by_cases hw : w ≤ now
      · simp only [step, if_pos hw, Option.some.injEq] at hs
        subst hs
        exact Or.inl rfl
      · simp [step, hw] at hs
  | fatal =>
    obtain ⟨now, token, blocked, timers, pc, iter, armed, started, finished, lastFinish,
      fired⟩ := s
    cases pc <;> simp only [step, Option.some.injEq, reduceCtorEq] at hs <;>
      (subst hs; exact Or.inl rfl)
  | panic =>
    obtain ⟨now, token, blocked, timers, pc, iter, armed, started, finished, lastFinish,
      fired⟩ := s
    cases pc <;> simp only [step, Option.some.injEq, reduceCtorEq] at hs
    subst hs
    exact Or.inl rfl

/-- C11: in repeat mode, in every reachable state of the scheduler at most one run
is in flight, at most one token or armed timer exists, no timer callback is
blocked in its send on the channel of capacity 1, and one timer has been armed per
run (one more between `time.AfterFunc` and the start of the run); and a transition
that starts a run is taken only when no run is in flight, every earlier run has
finished, the timers armed at the start of all earlier runs have fired and the
timer of the new run has just been armed. -/
theorem C11_one_run_in_flight (fl : SchedFlags) (as : List Action) (s : Sched)
    (_hrepeat : fl.runOnce = false) (hreach : exec fl Sched.init as = some s) :
    s.inFlight ≤ 1 ∧
    (if s.token then 1 else 0) + s.timers.length ≤ 1 ∧
    s.blocked = 0 ∧
    (s.started ≤ s.armed ∧ s.armed ≤ s.started + 1) ∧
    ∀ a s1, step fl s a = some s1 → s1.started = s.started + 1 →
      s.inFlight = 0 ∧ s.finished = s.started ∧ s.armed = s.started + 1 ∧
        ∀ k, 1 ≤ k → k ≤ s.started → k ∈ s.fired := by
  have hI := Inv_exec fl as Sched.init s (Inv_init fl) hreach
  have hU := hI.units
  have hA := hI.armedIter
  have h1 := hI.startedLe
  have h2 := hI.startedIter
  have h3 := hI.iterLe
  refine ⟨?_, ?_, hI.noBlocked, ?_, ?_⟩
  · unfold Sched.inFlight
    omega
  · split_ifs at hU ⊢ <;> omega
  · by_cases hp : s.pc = .arm
    · have h4 := hI.atArm hp
      rw [if_pos hp] at hA
      omega
    · rw [if_neg hp] at hA
      omega
  · intro a s1 hs hstart
    rcases started_of_step fl s s1 a hs with h | ⟨hp, _, _⟩
    · omega
    · have h4 := hI.atLaunch hp
      have hparm : s.pc ≠ .arm := by rw [hp]; intro e; cases e
      rw [if_neg hparm] at hA
      refine ⟨?_, h4.2, by omega, ?_⟩
      · unfold Sched.inFlight
        omega
      · intro k hk1 hk2
        exact hI.firedBefore k hk1 (by omega)

theorem C11_one_run_in_flight_witness :
    repeatState.inFlight ≤ 1 ∧
    (if repeatState.token then 1 else 0) + repeatState.timers.length ≤ 1 ∧
    repeatState.blocked = 0 ∧
    (repeatState.started ≤ repeatState.armed ∧ repeatState.armed ≤ repeatState.started + 1) ∧
    ∀ a s1, step flagsRepeat repeatState a = some s1 →
      s1.started = repeatState.started + 1 →
      repeatState.inFlight = 0 ∧ repeatState.finished = repeatState.started ∧
        repeatState.armed = repeatState.started + 1 ∧
        ∀ k, 1 ≤ k → k ≤ repeatState.started → k ∈ repeatState.fired :=
  C11_one_run_in_flight flagsRepeat repeatTrace repeatState (by decide) (by decide)

/-- C12: in run-once mode, for every wait duration and every repeat interval, no
reachable state has more than one run started, whenever the timer fires; when the
run ends without error the goroutine enters `time.Sleep(*runOnceWait)`; a sleeping
process has started and finished exactly one run and, once the wait has elapsed,
exits with status 0; status 0 is reached only after one finished run and the whole
wait; and the execution that does so exists: one run, the wait, exit 0. -/
theorem C12_run_once_runs_once (fl : SchedFlags) (as : List Action) (s : Sched)
    (hro : fl.runOnce = true) (hreach : exec fl Sched.init as = some s) :
    s.started ≤ 1 ∧
    (s.pc = .inFlight →
      step fl s .next = some { s with
        finished := s.finished + 1
        lastFinish := s.now
        pc := .sleep (s.now + fl.runOnceWait) }) ∧
    (∀ w, s.pc = .sleep w →
      s.started = 1 ∧ s.finished = 1 ∧ w = s.lastFinish + fl.runOnceWait ∧
        exec fl s [.tick (w - s.now).toNat, .next]
          = some { s with now := s.now + ((w - s.now).toNat : Int), pc := .exited 0 }) ∧
    (s.pc = .exited 0 →
      s.started = 1 ∧ s.finished = 1 ∧ s.lastFinish + fl.runOnceWait ≤ s.now) ∧
    ∃ s1, exec fl Sched.init (straightTrace fl) = some s1 ∧ s1.pc = .exited 0 ∧
      s1.started = 1 ∧ s1.finished = 1 := by
  have hI := Inv_exec fl as Sched.init s (Inv_init fl) hreach
  have h2 := hI.startedIter
  have h3 := (hI.once hro).1
  refine ⟨by omega, ?_, ?_, ?_, ?_⟩
  · intro hp
    obtain ⟨now, token, blocked, timers, pc, iter, armed, started, finished, lastFinish,
      fired⟩ := s
    simp only at hp
    subst hp
    simp [step, hro]
  · intro w hp
    have h4 := hI.atSleep w hp
    refine ⟨h4.2.1, h4.2.2.1, h4.2.2.2, ?_⟩
    obtain ⟨now, token, blocked, timers, pc, iter, armed, started, finished, lastFinish,
      fired⟩ := s
    simp only at hp
    subst hp
    have hw : w ≤ now + ((w - now).toNat : Int) := by
      have := Int.self_le_toNat (w - now)
      omega
    simp only [exec, step]
    rw [if_pos hw]
  · intro hp
    have h4 := hI.atExit0 hp
    exact ⟨h4.2.1, h4.2.2.1, h4.2.2.2⟩
  · have hw : fl.runOnceWait ≤ ((fl.runOnceWait.toNat : Nat) : Int) :=
      Int.self_le_toNat fl.runOnceWait
    have hw2 : (0 : Int) + fl.runOnceWait ≤ 0 + ((fl.runOnceWait.toNat : Nat) : Int) := by
      omega
    simp only [straightTrace, exec, step, Sched.init, hro, if_true]
    rw [if_pos hw2]
    exact ⟨_, rfl, rfl, rfl, rfl⟩

theorem C12_run_once_runs_once_witness :
    runOnceState.started ≤ 1 ∧
    (runOnceState.pc = .inFlight →
      step flagsOnce runOnceState .next = some { runOnceState with
        finished := runOnceState.finished + 1
        lastFinish := runOnceState.now
        pc := .sleep (runOnceState.now + flagsOnce.runOnceWait) }) ∧
    (∀ w, runOnceState.pc = .sleep w →
      runOnceState.started = 1 ∧ runOnceState.finished = 1 ∧
        w = runOnceState.lastFinish + flagsOnce.runOnceWait ∧
        exec flagsOnce runOnceState [.tick (w - runOnceState.now).toNat, .next]
          = some { runOnceState with
              now := runOnceState.now + ((w - runOnceState.now).toNat : Int)
              pc := .exited 0 }) ∧
    (runOnceState.pc = .exited 0 →
      runOnceState.started = 1 ∧ runOnceState.finished = 1 ∧
        runOnceState.lastFinish + flagsOnce.runOnceWait ≤ runOnceState.now) ∧
    ∃ s1, exec flagsOnce Sched.init (straightTrace flagsOnce) = some s1 ∧
      s1.pc = .exited 0 ∧ s1.started = 1 ∧ s1.finished = 1 :=
  C12_run_once_runs_once flagsOnce runOnceTrace runOnceState (by decide) (by decide)

/-- C13: the table of the decoder is symmetric between reads and writes: for each of
the 14 read measurements the table holds the read gauge at some index with some
transform and the corresponding write gauge at that index plus 47 with the same
transform; the table has 37 entries and their indices are pairwise distinct. -/
theorem C13_read_write_symmetry (r w : Metric) (h : writeOf r = some w) :
    (∃ t ∈ targets, t.metric = r ∧
      (⟨w, t.index + 47, t.transform⟩ : Target) ∈ targets) ∧
    (r ∈ readMetrics ∧ readMetrics.length = 14 ∧ readMetrics.Nodup ∧
      ∀ m ∈ readMetrics, (writeOf m).isSome = true) ∧
    targets.length = 37 ∧ (targets.map Target.index).Nodup := by
  refine ⟨?_, ⟨?_, by decide, by decide, by decide⟩, by decide, by decide⟩
  · cases r <;> simp only [writeOf, Option.some.injEq, reduceCtorEq] at h <;> subst h <;> decide
  · cases r <;> simp only [writeOf, Option.some.injEq, reduceCtorEq] at h <;> decide

theorem C13_read_write_symmetry_witness :
    (∃ t ∈ targets, t.metric = .fioReadLat95 ∧
      (⟨.fioWriteLat95, t.index + 47, t.transform⟩ : Target) ∈ targets) ∧
    (Metric.fioReadLat95 ∈ readMetrics ∧ readMetrics.length = 14 ∧ readMetrics.Nodup ∧
      ∀ m ∈ readMetrics, (writeOf m).isSome = true) ∧
    targets.length = 37 ∧ (targets.map Target.index).Nodup :=
  C13_read_write_symmetry .fioReadLat95 .fioWriteLat95 (by decide)

end FioExporter
